import Mathlib

/-!
Shallow embedding of the btrfs backref resolver
(src/kernel-shared/backref.c) and proofs about the frozen claims.

Machine integers are modelled as `Nat` (the u64 fields) and `Int` (the C
`int` counters and error returns); the arithmetic below only compares and
adds, never overflows in any reachable scenario, so no modular reduction is
required.  Memory allocation failure (-ENOMEM) is outside the model: kmalloc
is assumed to succeed.  External collaborators (B-tree search, block reads)
enter as explicit oracle parameters.
-/

namespace Backref

/-- btrfs key type constants from uapi/btrfs_tree.h. -/
def BTRFS_EXTENT_DATA_KEY : Nat := 108

def BTRFS_EXTENT_ITEM_KEY : Nat := 168

def BTRFS_METADATA_ITEM_KEY : Nat := 169

def BTRFS_TREE_BLOCK_REF_KEY : Nat := 176

def BTRFS_EXTENT_DATA_REF_KEY : Nat := 178

def BTRFS_SHARED_BLOCK_REF_KEY : Nat := 182

def BTRFS_SHARED_DATA_REF_KEY : Nat := 184

/-- BTRFS_DATA_RELOC_TREE_OBJECTID is -9ULL, i.e. 2^64 - 9. -/
def BTRFS_DATA_RELOC_TREE_OBJECTID : Nat := 18446744073709551607

def BTRFS_EXTENT_FLAG_DATA : Nat := 1

def BTRFS_EXTENT_FLAG_TREE_BLOCK : Nat := 2

/-- -ENOENT as returned by the C code. -/
def ENOENT : Int := -2

/-- -EUCLEAN, the corruption error used for invalid backref types. -/
def EUCLEAN : Int := -117

/-- struct btrfs_key. -/
structure BtrfsKey where
  objectid : Nat
  type : Nat
  offset : Nat
deriving DecidableEq, Repr

def zeroKey : BtrfsKey := { objectid := 0, type := 0, offset := 0 }

/-- struct extent_inode_elem; the intrusive singly-linked list becomes a
`List`. -/
structure InodeElem where
  inum : Nat
  offset : Nat
deriving DecidableEq, Repr

/-- struct __prelim_ref. -/
structure PrelimRef where
  root_id : Nat
  key_for_search : BtrfsKey
  level : Int
  count : Int
  inode_list : List InodeElem
  parent : Nat
  wanted_disk_byte : Nat
deriving DecidableEq, Repr

/-- struct pref_state: the three work queues (intrusive lists become
`List PrelimRef`, kept in insertion order as list_add_tail produces). -/
structure PrefState where
  pending : List PrelimRef
  pending_missing_keys : List PrelimRef
  pending_indirect_refs : List PrelimRef
deriving DecidableEq, Repr

def initPrefState : PrefState :=
  { pending := [], pending_missing_keys := [], pending_indirect_refs := [] }

/-- __add_prelim_ref.  A data-reloc-tree ref is dropped with success;
otherwise the ref is routed: key present and parent nonzero -> pending,
key present and no parent -> indirect, no key but parent -> pending,
neither -> missing keys.  ENOMEM is outside the model, so the function is
total. -/
def add_prelim_ref (st : PrefState) (root_id : Nat) (key : Option BtrfsKey)
    (level : Int) (parent wanted_disk_byte : Nat) (count : Int) : PrefState :=
  if root_id = BTRFS_DATA_RELOC_TREE_OBJECTID then st
  else
    let ref : PrelimRef :=
      { root_id := root_id
        key_for_search := key.getD zeroKey
        level := level
        count := count
        inode_list := []
        parent := parent
        wanted_disk_byte := wanted_disk_byte }
    match key with
    | some _ =>
      if parent ≠ 0 then { st with pending := st.pending ++ [ref] }
      else { st with pending_indirect_refs := st.pending_indirect_refs ++ [ref] }
    | none =>
      if parent ≠ 0 then { st with pending := st.pending ++ [ref] }
      else { st with pending_missing_keys := st.pending_missing_keys ++ [ref] }

/-- One decoded inline reference: the type byte plus the payload fields the
accessors would read for that type (offset for shared/tree refs, the
shared_data_ref count, and the extent_data_ref fields). -/
structure RawIref where
  rtype : Nat
  offset : Nat
  sd_count : Int
  d_root : Nat
  d_objectid : Nat
  d_offset : Nat
  d_count : Int
deriving DecidableEq, Repr

/-- The switch body of __add_inline_refs for one inline ref.  An
unrecognized type yields -EUCLEAN. -/
def inline_ref_step (st : PrefState) (bytenr : Nat) (info_level : Int)
    (r : RawIref) : Except Int PrefState :=
  if r.rtype = BTRFS_SHARED_BLOCK_REF_KEY then
    .ok (add_prelim_ref st 0 none (info_level + 1) r.offset bytenr 1)
  else if r.rtype = BTRFS_SHARED_DATA_REF_KEY then
    .ok (add_prelim_ref st 0 none 0 r.offset bytenr r.sd_count)
  else if r.rtype = BTRFS_TREE_BLOCK_REF_KEY then
    .ok (add_prelim_ref st r.offset none (info_level + 1) 0 bytenr 1)
  else if r.rtype = BTRFS_EXTENT_DATA_REF_KEY then
    .ok (add_prelim_ref st r.d_root
      (some { objectid := r.d_objectid, type := BTRFS_EXTENT_DATA_KEY,
              offset := r.d_offset }) 0 0 bytenr r.d_count)
  else
    .error EUCLEAN

/-- The while loop over the inline refs of __add_inline_refs. -/
def fold_inline (bytenr : Nat) (info_level : Int) :
    List RawIref → PrefState → Except Int PrefState
  | [], st => .ok st
  | r :: rs, st =>
    match inline_ref_step st bytenr info_level r with
    | .error e => .error e
    | .ok st2 => fold_inline bytenr info_level rs st2

/-- The extent item record found for the scanned bytenr: its key type and
offset, the extent flags, the total reference count (btrfs_extent_refs),
the tree_block_info level (meaningful for non-skinny tree blocks) and the
decoded inline refs. -/
structure ExtentItemRec where
  key_type : Nat
  key_offset : Nat
  flags : Nat
  refs : Nat
  tb_level : Nat
  inline : List RawIref
deriving DecidableEq, Repr

/-- info_level as computed by __add_inline_refs: from btrfs_tree_block_info
for a plain EXTENT_ITEM tree block, from the key offset for a skinny
METADATA_ITEM, else left at 0 (data extents). -/
def info_level_of (item : ExtentItemRec) : Int :=
  if item.key_type = BTRFS_EXTENT_ITEM_KEY ∧
      item.flags &&& BTRFS_EXTENT_FLAG_TREE_BLOCK ≠ 0 then item.tb_level
  else if item.key_type = BTRFS_METADATA_ITEM_KEY then item.key_offset
  else 0

/-- __add_inline_refs: accumulates total_refs from the item header and
enqueues every inline ref; returns the new state, the info level and the
total ref count. -/
def add_inline_refs (st : PrefState) (bytenr : Nat) (item : ExtentItemRec) :
    Except Int (PrefState × Int × Nat) :=
  let il := info_level_of item
  match fold_inline bytenr il item.inline st with
  | .error e => .error e
  | .ok st2 => .ok (st2, il, item.refs)

/-- One keyed (non-inline) backref item as iterated by btrfs_next_item:
its key plus the payload fields read for each recognized type. -/
structure KeyedItem where
  key : BtrfsKey
  sd_count : Int
  d_root : Nat
  d_objectid : Nat
  d_offset : Nat
  d_count : Int
deriving DecidableEq, Repr

/-- __add_keyed_refs.  The iteration breaks when the objectid changes or
the key type leaves the backref range; types below the range are skipped;
a type inside the range matching none of the four cases hits the default
(WARN_ON only) and the scan continues (the C code sets no error there). -/
def add_keyed_refs (bytenr : Nat) (info_level : Int) :
    List KeyedItem → PrefState → PrefState
  | [], st => st
  | it :: rest, st =>
    if it.key.objectid ≠ bytenr then st
    else if it.key.type < BTRFS_TREE_BLOCK_REF_KEY then
      add_keyed_refs bytenr info_level rest st
    else if BTRFS_SHARED_DATA_REF_KEY < it.key.type then st
    else if it.key.type = BTRFS_SHARED_BLOCK_REF_KEY then
      add_keyed_refs bytenr info_level rest
        (add_prelim_ref st 0 none (info_level + 1) it.key.offset bytenr 1)
    else if it.key.type = BTRFS_SHARED_DATA_REF_KEY then
      add_keyed_refs bytenr info_level rest
        (add_prelim_ref st 0 none 0 it.key.offset bytenr it.sd_count)
    else if it.key.type = BTRFS_TREE_BLOCK_REF_KEY then
      add_keyed_refs bytenr info_level rest
        (add_prelim_ref st it.key.offset none (info_level + 1) 0 bytenr 1)
    else if it.key.type = BTRFS_EXTENT_DATA_REF_KEY then
      add_keyed_refs bytenr info_level rest
        (add_prelim_ref st it.d_root
          (some { objectid := it.d_objectid, type := BTRFS_EXTENT_DATA_KEY,
                  offset := it.d_offset }) 0 0 bytenr it.d_count)
    else
      add_keyed_refs bytenr info_level rest st

/-- The loop body of __add_missing_keys over the missing-key queue:
read the block at wanted_disk_byte (oracle fk gives its first key, none
models a failed/stale read -> -EIO), set key_for_search, and move the ref
to pending (if it has a parent, which the assertions rule out) or to the
indirect queue. -/
def add_missing_keys_list (fk : Nat → Option BtrfsKey) :
    List PrelimRef → List PrelimRef → List PrelimRef →
    Except Int (List PrelimRef × List PrelimRef)
  | [], pend, ind => .ok (pend, ind)
  | r :: rest, pend, ind =>
    match fk r.wanted_disk_byte with
    | none => .error (-5)
    | some k =>
      let r2 := { r with key_for_search := k }
      if r2.parent ≠ 0 then
        add_missing_keys_list fk rest (pend ++ [r2]) ind
      else
        add_missing_keys_list fk rest pend (ind ++ [r2])

/-- __add_missing_keys. -/
def add_missing_keys (fk : Nat → Option BtrfsKey) (st : PrefState) :
    Except Int PrefState :=
  match add_missing_keys_list fk st.pending_missing_keys st.pending
      st.pending_indirect_refs with
  | .error e => .error e
  | .ok (pend, ind) =>
    .ok { pending := pend, pending_missing_keys := [],
          pending_indirect_refs := ind }

/-- ref_for_same_block: the mode-1 merge criterion of __merge_refs. -/
def ref_for_same_block (r1 r2 : PrelimRef) : Bool :=
  if r1.level ≠ r2.level then false
  else if r1.root_id ≠ r2.root_id then false
  else if r1.key_for_search.type ≠ r2.key_for_search.type then false
  else if r1.key_for_search.objectid ≠ r2.key_for_search.objectid then false
  else if r1.key_for_search.offset ≠ r2.key_for_search.offset then false
  else if r1.parent ≠ r2.parent then false
  else true

/-- The mode-2 merge criterion of __merge_refs: identical nonzero parents. -/
def same_parent (r1 r2 : PrelimRef) : Bool :=
  if r1.parent = 0 ∨ r2.parent = 0 then false
  else if r1.parent ≠ r2.parent then false
  else true

/-- The inner loop of __merge_refs: absorb every later ref matching ref1
(summing counts and appending inode lists onto ref1) and drop it; the
non-matching refs stay, in order. -/
def merge_absorb (m : PrelimRef → PrelimRef → Bool) :
    PrelimRef → List PrelimRef → PrelimRef × List PrelimRef
  | r, [] => (r, [])
  | r, x :: xs =>
    if m r x then
      merge_absorb m
        { r with count := r.count + x.count,
                 inode_list := r.inode_list ++ x.inode_list } xs
    else
      let p := merge_absorb m r xs
      (p.1, x :: p.2)

/-- The absorb step never lengthens the residual list. -/
def merge_absorb_len_le (m : PrelimRef → PrelimRef → Bool)
    (r : PrelimRef) (l : List PrelimRef) :
    (merge_absorb m r l).2.length ≤ l.length := by
  induction l generalizing r with
  | nil => simp [merge_absorb]
  | cons x xs ih =>
    by_cases h : m r x = true
    · simp only [merge_absorb, h, if_pos]
      exact Nat.le_succ_of_le (ih _)
    · simp only [merge_absorb, h, if_neg, Bool.false_eq_true, not_false_iff,
        List.length_cons]
      exact Nat.succ_le_succ (ih r)

/-- The outer loop of __merge_refs over the pending list. -/
def merge_refs_list (m : PrelimRef → PrelimRef → Bool) :
    List PrelimRef → List PrelimRef
  | [] => []
  | r :: rest =>
    (merge_absorb m r rest).1 :: merge_refs_list m (merge_absorb m r rest).2
termination_by l => l.length
decreasing_by
  simp only [List.length_cons]
  exact Nat.lt_succ_of_le (merge_absorb_len_le m r rest)

/-- __merge_refs: both modes touch only the pending queue. -/
def merge_refs (st : PrefState) (mode : Nat) : PrefState :=
  let m := if mode = 1 then ref_for_same_block else same_parent
  { st with pending := merge_refs_list m st.pending }

/-- Sum of the reference counts of a queue. -/
def sum_counts (l : List PrelimRef) : Int :=
  (l.map PrelimRef.count).sum

/-- Sum of the reference counts across the three queues. -/
def state_sum (st : PrefState) : Int :=
  sum_counts st.pending + sum_counts st.pending_missing_keys +
    sum_counts st.pending_indirect_refs

/-- The first half of find_parent_nodes once the extent item has been
located: __add_inline_refs, __add_keyed_refs, __add_missing_keys, then
merge pass 1.  Returns the merged state and total_refs. -/
def find_parent_nodes_scan (fk : Nat → Option BtrfsKey) (bytenr : Nat)
    (item : ExtentItemRec) (keyed : List KeyedItem) :
    Except Int (PrefState × Nat) :=
  match add_inline_refs initPrefState bytenr item with
  | .error e => .error e
  | .ok (st1, il, total) =>
    let st2 := add_keyed_refs bytenr il keyed st1
    match add_missing_keys fk st2 with
    | .error e => .error e
    | .ok st3 => .ok (merge_refs st3 1, total)

/-- struct btrfs_file_extent_item, restricted to the fields backref.c
reads. -/
structure FileExtentItem where
  compression : Nat
  encryption : Nat
  other_encoding : Nat
  offset : Nat
  num_bytes : Nat
  disk_bytenr : Nat
deriving DecidableEq, Repr

/-- check_extent_in_eb: returns the C ret value (1 = range does not cover
the queried position, 0 = an element was recorded) and the updated inode
list (the new element is pushed at the head, as in the C code). -/
def check_extent_in_eb (key : BtrfsKey) (fi : FileExtentItem)
    (extent_item_pos : Nat) (eie : List InodeElem) : Int × List InodeElem :=
  if fi.compression = 0 ∧ fi.encryption = 0 ∧ fi.other_encoding = 0 then
    if extent_item_pos < fi.offset ∨
        fi.offset + fi.num_bytes ≤ extent_item_pos then (1, eie)
    else
      (0, { inum := key.objectid,
            offset := key.offset + (extent_item_pos - fi.offset) } :: eie)
  else
    (0, { inum := key.objectid, offset := key.offset + 0 } :: eie)

/-- ulist_add: the deduplicating set used for parents and roots.  Nodes are
kept in insertion order; adding a present value changes nothing. -/
structure Ulist where
  nodes : List Nat
deriving DecidableEq, Repr

def ulist_add (u : Ulist) (v : Nat) : Ulist :=
  if v ∈ u.nodes then u else { nodes := u.nodes ++ [v] }

/-- ulist_add_merge_ptr on a (value, aux inode list) association list: a
new value is appended with its aux; re-adding an existing value keeps the
node and appends the new aux list onto the old one (the `old->next = eie`
splice guarded by extent_item_pos; with no position the incoming aux is
empty, so the splice is the identity either way). -/
def ulist_add_merge (l : List (Nat × List InodeElem)) (v : Nat)
    (aux : List InodeElem) : List (Nat × List InodeElem) :=
  if l.any (fun p => p.1 = v) then
    l.map (fun p => if p.1 = v then (p.1, p.2 ++ aux) else p)
  else l ++ [(v, aux)]

/-- One leaf item seen by the level-0 scan of add_all_parents: its key, its
file extent item and the start address of the leaf holding it
(btrfs_next_item may cross leaves, so each item carries its leaf). -/
structure LeafItem where
  key : BtrfsKey
  fi : FileExtentItem
  ebStart : Nat
deriving DecidableEq, Repr

/-- The level-0 while loop of add_all_parents.  `cnt` is the local `count`
of matching disk bytes; the loop runs while cnt < total_refs and the keys
still match (objectid of the search key, EXTENT_DATA type).  Returns the
parents ulist and the final value of `count`. -/
def add_all_parents_loop (kfs : BtrfsKey) (wanted_disk_byte : Nat)
    (total_refs : Nat) (pos : Option Nat) :
    List LeafItem → Nat → List (Nat × List InodeElem) →
    List (Nat × List InodeElem) × Nat
  | [], cnt, parents => (parents, cnt)
  | it :: rest, cnt, parents =>
    if total_refs ≤ cnt then (parents, cnt)
    else if it.key.objectid ≠ kfs.objectid ∨
        it.key.type ≠ BTRFS_EXTENT_DATA_KEY then (parents, cnt)
    else if it.fi.disk_bytenr = wanted_disk_byte then
      match pos with
      | some p =>
        let res := check_extent_in_eb it.key it.fi p []
        if 0 < res.1 then
          add_all_parents_loop kfs wanted_disk_byte total_refs pos rest
            (cnt + 1) parents
        else
          add_all_parents_loop kfs wanted_disk_byte total_refs pos rest
            (cnt + 1) (ulist_add_merge parents it.ebStart res.2)
      | none =>
        add_all_parents_loop kfs wanted_disk_byte total_refs pos rest
          (cnt + 1) (ulist_add_merge parents it.ebStart [])
    else
      add_all_parents_loop kfs wanted_disk_byte total_refs pos rest cnt
        parents

/-- add_all_parents.  For level != 0 the parent is just the node reached at
that level (node_start); for level 0 the leaf items from the search
position onward are scanned.  The second component is the final value of
the local `count` (0 on the nonzero-level path, where it is never
incremented). -/
def add_all_parents (ref : PrelimRef) (level : Nat) (node_start : Nat)
    (total_refs : Nat) (pos : Option Nat) (items : List LeafItem) :
    List (Nat × List InodeElem) × Nat :=
  if level ≠ 0 then ([(node_start, [])], 0)
  else
    add_all_parents_loop ref.key_for_search ref.wanted_disk_byte total_refs
      pos items 0 []

/-- The loop of __resolve_indirect_refs.  Each indirect ref is first moved
onto the pending queue, then resolved through the oracle (modelling
__resolve_indirect_ref: error = its negative return, ok = the parents
ulist it filled).  -ENOENT is tolerated: the ref simply stays on pending
unresolved.  Any other error aborts.  On success the first parent mutates
the ref in place and every further parent is emitted as a clone. -/
def resolve_indirect_refs
    (oracle : PrelimRef → Except Int (List (Nat × List InodeElem))) :
    List PrelimRef → List PrelimRef → Except Int (List PrelimRef)
  | [], pending => .ok pending
  | ref :: rest, pending =>
    match oracle ref with
    | .error e =>
      if e = ENOENT then resolve_indirect_refs oracle rest (pending ++ [ref])
      else .error e
    | .ok parents =>
      match parents with
      | [] =>
        resolve_indirect_refs oracle rest
          (pending ++ [{ ref with parent := 0, inode_list := [] }])
      | first :: more =>
        let ref2 := { ref with parent := first.1, inode_list := first.2 }
        let clones := more.map fun p =>
          { ref2 with parent := p.1, inode_list := p.2 }
        resolve_indirect_refs oracle rest (pending ++ ref2 :: clones)

/-- The final drain loop of find_parent_nodes: refs with no parent but a
root contribute root_id to the roots ulist (when a roots ulist was
supplied); refs with a parent contribute (parent, inode list) to the refs
ulist, where a level-0 ref with an empty inode list is first completed by
reading the parent block (oracle eb_inodes models find_extent_in_eb) when
a byte position was requested. -/
def drain_pending (include_roots : Bool) (pos : Option Nat)
    (eb_inodes : Nat → List InodeElem) :
    List PrelimRef → Ulist → List (Nat × List InodeElem) →
    Ulist × List (Nat × List InodeElem)
  | [], roots, refs => (roots, refs)
  | ref :: rest, roots, refs =>
    let roots2 :=
      if include_roots ∧ ref.count ≠ 0 ∧ ref.root_id ≠ 0 ∧ ref.parent = 0
      then ulist_add roots ref.root_id else roots
    let refs2 :=
      if ref.count ≠ 0 ∧ ref.parent ≠ 0 then
        let il :=
          if pos.isSome ∧ ref.inode_list = [] ∧ ref.level = 0 then
            eb_inodes ref.parent
          else ref.inode_list
        ulist_add_merge refs ref.parent il
      else refs
    drain_pending include_roots pos eb_inodes rest roots2 refs2

/-- btrfs_find_all_leafs, abstracted over the outcome of its single
find_parent_nodes call: a negative return other than -ENOENT is passed
through, -ENOENT is swallowed (the partially filled leafs ulist of the
failed pass is not modelled and stands as empty). -/
def btrfs_find_all_leafs
    (fpn_result : Except Int (List (Nat × List InodeElem))) :
    Except Int (List (Nat × List InodeElem)) :=
  match fpn_result with
  | .error e => if e < 0 ∧ e ≠ ENOENT then .error e else .ok []
  | .ok leafs => .ok leafs

/-- The iteration of __btrfs_find_all_roots.  fpn maps a bytenr to the
outcome of find_parent_nodes for it: error = its negative return, ok =
(parents added to tmp, roots added to the roots ulist).  -ENOENT is
tolerated and contributes nothing; other errors abort.  The ulist iterator
is the index idx into tmp's node list; the loop stops when it yields no
new address.  Fuel counts remaining iterations; none = fuel ran out. -/
def find_all_roots_loop (fpn : Nat → Except Int (List Nat × List Nat)) :
    Nat → Nat → Ulist → Nat → Ulist → Option (Except Int Ulist)
  | 0, _, _, _, _ => none
  | fuel + 1, bytenr, tmp, idx, roots =>
    match fpn bytenr with
    | .error e =>
      if e = ENOENT then
        match tmp.nodes[idx]? with
        | none => some (.ok roots)
        | some v => find_all_roots_loop fpn fuel v tmp (idx + 1) roots
      else some (.error e)
    | .ok (ps, rs) =>
      let tmp2 := ps.foldl ulist_add tmp
      let roots2 := rs.foldl ulist_add roots
      match tmp2.nodes[idx]? with
      | none => some (.ok roots2)
      | some v => find_all_roots_loop fpn fuel v tmp2 (idx + 1) roots2

/-- The loop of btrfs_ref_to_path, operating on the successful parent-link
chain: `recs` holds, innermost first, the names found by each further
inode_ref_info lookup until the self-link is reached; `name` is the name
handed to the current iteration; `bytes_left` the running s64 counter;
`acc` the buffer contents from the current write position to the end
(exclusive of the trailing NUL).  A name or separator is only written when
the decremented counter is still nonnegative, exactly as in the C code. -/
def btrfs_ref_to_path_loop :
    List (List Char) → List Char → Int → List Char → Int × List Char
  | recs, name, bytes_left, acc =>
    let bl : Int := bytes_left - name.length
    let acc2 := if 0 ≤ bl then name ++ acc else acc
    match recs with
    | [] => (bl, acc2)
    | next :: rest =>
      let bl2 := bl - 1
      let acc3 := if 0 ≤ bl2 then '/' :: acc2 else acc2
      btrfs_ref_to_path_loop rest next bl2 acc3

/-- btrfs_ref_to_path: bytes_left starts at size - 1 (one byte for the
terminating NUL); the returned Int is the final bytes_left, i.e. the
offset of the returned start pointer from the buffer base (negative on
underflow), and the list is the string written. -/
def btrfs_ref_to_path (recs : List (List Char)) (name : List Char)
    (size : Nat) : Int × List Char :=
  btrfs_ref_to_path_loop recs name ((size : Int) - 1) []

/-- struct btrfs_data_container plus the produced path strings (val[]
pointers become the strings themselves). -/
structure DataContainer where
  bytes_left : Nat
  bytes_missing : Nat
  elem_cnt : Nat
  elem_missed : Nat
  paths : List (List Char)
deriving DecidableEq, Repr

/-- sizeof(char *): the pointer slot reserved in val[] per path. -/
def s_ptr : Nat := 8

/-- inode_to_path: one candidate path is rendered into the space after the
pointer slots; it counts as produced only when the returned start pointer
lies strictly above fspath_min, else the miss counters advance. -/
def inode_to_path (recs : List (List Char)) (name : List Char)
    (c : DataContainer) : DataContainer :=
  let avail : Nat := if s_ptr < c.bytes_left then c.bytes_left - s_ptr else 0
  let r := btrfs_ref_to_path recs name avail
  if 0 < r.1 then
    { c with paths := c.paths ++ [r.2], elem_cnt := c.elem_cnt + 1,
             bytes_left := r.1.toNat }
  else
    { c with elem_missed := c.elem_missed + 1,
             bytes_missing := c.bytes_missing + (0 - r.1).toNat,
             bytes_left := 0 }

/-- paths_from_inode for an inode with exactly one parent link: iterating
the inode refs produces a single inode_to_path call on the freshly
initialized container (capacity = usable bytes of the data container). -/
def paths_from_inode_single (recs : List (List Char)) (name : List Char)
    (capacity : Nat) : DataContainer :=
  inode_to_path recs name
    { bytes_left := capacity, bytes_missing := 0, elem_cnt := 0,
      elem_missed := 0, paths := [] }

/-- The true length of the path assembled from `name` and the chain
`recs`: all name bytes plus one separator per chain link. -/
def path_len (recs : List (List Char)) (name : List Char) : Nat :=
  name.length + (recs.map List.length).sum + recs.length

/-- The full path string the chain denotes: outermost name first,
components separated, no leading separator. -/
def full_path : List (List Char) → List Char → List Char
  | [], name => name
  | next :: rest, name => full_path rest next ++ '/' :: name

/-- The six fields ref_for_same_block compares, as one tuple. -/
def same_block_key (r : PrelimRef) : Int × Nat × Nat × Nat × Nat × Nat :=
  (r.level, r.root_id, r.key_for_search.type, r.key_for_search.objectid,
    r.key_for_search.offset, r.parent)

/-- The reference count a decoded inline ref carries (1 for the implicit
tree/shared-block counts). -/
def iref_count (r : RawIref) : Int :=
  if r.rtype = BTRFS_SHARED_BLOCK_REF_KEY then 1
  else if r.rtype = BTRFS_SHARED_DATA_REF_KEY then r.sd_count
  else if r.rtype = BTRFS_TREE_BLOCK_REF_KEY then 1
  else if r.rtype = BTRFS_EXTENT_DATA_REF_KEY then r.d_count
  else 0

/-- The inline ref has one of the four recognized backref types. -/
def iref_recognized (r : RawIref) : Prop :=
  r.rtype = BTRFS_TREE_BLOCK_REF_KEY ∨ r.rtype = BTRFS_EXTENT_DATA_REF_KEY ∨
  r.rtype = BTRFS_SHARED_BLOCK_REF_KEY ∨ r.rtype = BTRFS_SHARED_DATA_REF_KEY

/-- The inline ref is not owned by the data relocation tree. -/
def iref_not_reloc (r : RawIref) : Prop :=
  (r.rtype = BTRFS_TREE_BLOCK_REF_KEY →
    r.offset ≠ BTRFS_DATA_RELOC_TREE_OBJECTID) ∧
  (r.rtype = BTRFS_EXTENT_DATA_REF_KEY →
    r.d_root ≠ BTRFS_DATA_RELOC_TREE_OBJECTID)

/-- The reference count a keyed backref item carries. -/
def keyed_count (it : KeyedItem) : Int :=
  if it.key.type = BTRFS_SHARED_BLOCK_REF_KEY then 1
  else if it.key.type = BTRFS_SHARED_DATA_REF_KEY then it.sd_count
  else if it.key.type = BTRFS_TREE_BLOCK_REF_KEY then 1
  else if it.key.type = BTRFS_EXTENT_DATA_REF_KEY then it.d_count
  else 0

/-- The keyed item belongs to the scanned bytenr, has a recognized backref
type and is not owned by the data relocation tree. -/
def keyed_ok (bytenr : Nat) (it : KeyedItem) : Prop :=
  it.key.objectid = bytenr ∧
  (it.key.type = BTRFS_TREE_BLOCK_REF_KEY ∨
    it.key.type = BTRFS_EXTENT_DATA_REF_KEY ∨
    it.key.type = BTRFS_SHARED_BLOCK_REF_KEY ∨
    it.key.type = BTRFS_SHARED_DATA_REF_KEY) ∧
  (it.key.type = BTRFS_TREE_BLOCK_REF_KEY →
    it.key.offset ≠ BTRFS_DATA_RELOC_TREE_OBJECTID) ∧
  (it.key.type = BTRFS_EXTENT_DATA_REF_KEY →
    it.d_root ≠ BTRFS_DATA_RELOC_TREE_OBJECTID)

/-- Abbreviation: a PrelimRef with the given fields and an empty inode
list, as __add_prelim_ref builds it. -/
def mk_ref (root_id : Nat) (key : BtrfsKey) (level : Int) (count : Int)
    (parent wdb : Nat) : PrelimRef :=
  { root_id := root_id, key_for_search := key, level := level,
    count := count, inode_list := [], parent := parent,
    wanted_disk_byte := wdb }

/-- Abbreviation: append one ref to the pending queue. -/
def push_pending (st : PrefState) (ref : PrelimRef) : PrefState :=
  { st with pending := st.pending ++ [ref] }

/-- Abbreviation: append one ref to the missing-key queue. -/
def push_missing (st : PrefState) (ref : PrelimRef) : PrefState :=
  { st with pending_missing_keys := st.pending_missing_keys ++ [ref] }

/-- Abbreviation: append one ref to the indirect queue. -/
def push_indirect (st : PrefState) (ref : PrelimRef) : PrefState :=
  { st with pending_indirect_refs := st.pending_indirect_refs ++ [ref] }

/-- Concrete file extent item used in the C5 scenario. -/
def c5_fi : FileExtentItem :=
  { compression := 0, encryption := 0, other_encoding := 0, offset := 0,
    num_bytes := 50, disk_bytenr := 4096 }

/-- First matching leaf item of the C5 scenario. -/
def c5_item1 : LeafItem :=
  { key := { objectid := 11, type := 108, offset := 0 }, fi := c5_fi,
    ebStart := 77 }

/-- Second matching leaf item of the C5 scenario. -/
def c5_item2 : LeafItem :=
  { key := { objectid := 11, type := 108, offset := 100 }, fi := c5_fi,
    ebStart := 77 }

/-- The indirect ref of the C5 scenario: declared count 1. -/
def c5_ref : PrelimRef :=
  mk_ref 7 { objectid := 11, type := 108, offset := 0 } 0 1 0 4096

/-- A data extent whose only reference is an extent-data ref owned by the
data relocation tree; its header counts that ref (refs = 1). -/
def c2_item : ExtentItemRec :=
  { key_type := 168, key_offset := 0, flags := 1, refs := 1, tb_level := 0,
    inline := [{ rtype := 178, offset := 0, sd_count := 0,
                 d_root := 18446744073709551607, d_objectid := 3,
                 d_offset := 0, d_count := 1 }] }

/-- A data extent with one ordinary shared-block inline ref, header
refs = 1: the well-formed witness input for count conservation. -/
def c2_witness_item : ExtentItemRec :=
  { key_type := 168, key_offset := 0, flags := 2, refs := 1, tb_level := 1,
    inline := [{ rtype := 182, offset := 8192, sd_count := 0, d_root := 0,
                 d_objectid := 0, d_offset := 0, d_count := 0 }] }

instance (r : RawIref) : Decidable (iref_recognized r) := by
  unfold iref_recognized
  infer_instance

instance (r : RawIref) : Decidable (iref_not_reloc r) := by
  unfold iref_not_reloc
  infer_instance

instance (bytenr : Nat) (it : KeyedItem) : Decidable (keyed_ok bytenr it) := by
  unfold keyed_ok
  infer_instance

/-- A concrete unresolved indirect ref (root 5, count 1, no parent) used
in the C4 scenario. -/
def c4_ref : PrelimRef :=
  mk_ref 5 { objectid := 3, type := 108, offset := 0 } 0 1 0 4096

end Backref

namespace Backref

/-! ## Helper lemmas about the merge pass -/

theorem same_block_iff (a b : PrelimRef) :
    ref_for_same_block a b = true ↔ same_block_key a = same_block_key b := by
  unfold ref_for_same_block same_block_key
  split_ifs with h1 h2 h3 h4 h5 h6 <;>
    simp_all [Prod.ext_iff]

theorem same_block_update (r x : PrelimRef) (c : Int) (il : List InodeElem) :
    ref_for_same_block
      { r with count := c, inode_list := il } x = ref_for_same_block r x :=
  rfl

theorem absorb_fst_key (l : List PrelimRef) (r : PrelimRef) :
    same_block_key (merge_absorb ref_for_same_block r l).1 =
      same_block_key r := by
  induction l generalizing r with
  | nil => rfl
  | cons x xs ih =>
    by_cases h : ref_for_same_block r x = true
    · simp only [merge_absorb, h, if_pos]
      rw [ih]
      rfl
    · simp only [merge_absorb, h, if_neg, Bool.false_eq_true, not_false_iff]
      exact ih r

theorem absorb_snd_filter (l : List PrelimRef) (r : PrelimRef) :
    (merge_absorb ref_for_same_block r l).2 =
      l.filter (fun x => !(ref_for_same_block r x)) := by
  induction l generalizing r with
  | nil => rfl
  | cons x xs ih =>
    by_cases h : ref_for_same_block r x = true
    · simp only [merge_absorb, h, if_pos, List.filter_cons, Bool.not_true,
        Bool.false_eq_true, if_neg, not_false_iff]
      rw [ih]
      exact List.filter_congr fun y _ => by
        rw [same_block_update r y (r.count + x.count)
          (r.inode_list ++ x.inode_list)]
    · simp only [merge_absorb, h, if_neg, Bool.false_eq_true, not_false_iff,
        List.filter_cons]
      simp only [Bool.not_eq_true] at h
      simp [h, ih]

theorem absorb_fst_no_match (l : List PrelimRef) (r : PrelimRef)
    (h : ∀ x ∈ l, ref_for_same_block r x = false) :
    (merge_absorb ref_for_same_block r l).1 = r := by
  induction l with
  | nil => rfl
  | cons x xs ih =>
    have hx : ref_for_same_block r x = false := h x (List.mem_cons_self x xs)
    simp only [merge_absorb, hx, Bool.false_eq_true, if_neg, not_false_iff]
    exact ih fun y hy => h y (List.mem_cons_of_mem x hy)

theorem mem_merge_key (n : Nat) :
    ∀ (l : List PrelimRef), l.length ≤ n →
    ∀ x ∈ merge_refs_list ref_for_same_block l,
    ∃ y ∈ l, same_block_key x = same_block_key y := by
  induction n with
  | zero =>
    intro l hl x hx
    have : l = [] := List.length_eq_zero.mp (Nat.le_zero.mp hl)
    subst this
    simp [merge_refs_list] at hx
  | succ n ih =>
    intro l hl x hx
    match l with
    | [] => simp [merge_refs_list] at hx
    | r :: rest =>
      rw [merge_refs_list] at hx
      rcases List.mem_cons.mp hx with h | h
      · exact ⟨r, List.mem_cons_self r rest, h ▸ absorb_fst_key rest r⟩
      · have hlen : (merge_absorb ref_for_same_block r rest).2.length ≤ n := by
          have := merge_absorb_len_le ref_for_same_block r rest
          have h2 : rest.length ≤ n := Nat.le_of_succ_le_succ hl
          omega
        obtain ⟨y, hy, hkey⟩ := ih _ hlen x h
        rw [absorb_snd_filter] at hy
        exact ⟨y, List.mem_cons_of_mem r (List.mem_of_mem_filter hy), hkey⟩

theorem merge_pairwise (n : Nat) :
    ∀ (l : List PrelimRef), l.length ≤ n →
    (merge_refs_list ref_for_same_block l).Pairwise
      (fun a b => ref_for_same_block a b = false) := by
  induction n with
  | zero =>
    intro l hl
    have : l = [] := List.length_eq_zero.mp (Nat.le_zero.mp hl)
    subst this
    simp [merge_refs_list]
  | succ n ih =>
    intro l hl
    match l with
    | [] => simp [merge_refs_list]
    | r :: rest =>
      rw [merge_refs_list]
      have hlen : (merge_absorb ref_for_same_block r rest).2.length ≤ n := by
        have := merge_absorb_len_le ref_for_same_block r rest
        have h2 : rest.length ≤ n := Nat.le_of_succ_le_succ hl
        omega
      refine List.Pairwise.cons ?_ (ih _ hlen)
      intro b hb
      obtain ⟨y, hy, hkey⟩ := mem_merge_key n _ hlen b hb
      rw [absorb_snd_filter] at hy
      have hno : ref_for_same_block r y = false := by
        have := List.of_mem_filter hy
        simpa using this
      by_contra hcon
      have htrue : ref_for_same_block (merge_absorb ref_for_same_block r rest).1 b = true := by
        cases hval : ref_for_same_block (merge_absorb ref_for_same_block r rest).1 b
        · exact absurd hval hcon
        · rfl
      have hk1 := (same_block_iff _ _).mp htrue
      rw [absorb_fst_key] at hk1
      have : ref_for_same_block r y = true := by
        rw [same_block_iff]
        rw [← hkey, ← hk1]
      rw [this] at hno
      cases hno

theorem merge_fixed (n : Nat) :
    ∀ (l : List PrelimRef), l.length ≤ n →
    l.Pairwise (fun a b => ref_for_same_block a b = false) →
    merge_refs_list ref_for_same_block l = l := by
  induction n with
  | zero =>
    intro l hl _
    have : l = [] := List.length_eq_zero.mp (Nat.le_zero.mp hl)
    subst this
    simp [merge_refs_list]
  | succ n ih =>
    intro l hl hp
    match l with
    | [] => simp [merge_refs_list]
    | r :: rest =>
      rw [merge_refs_list]
      have hhead : ∀ x ∈ rest, ref_for_same_block r x = false :=
        fun x hx => (List.pairwise_cons.mp hp).1 x hx
      have hsnd : (merge_absorb ref_for_same_block r rest).2 = rest := by
        rw [absorb_snd_filter]
        apply List.filter_eq_self.mpr
        intro a ha
        simp [hhead a ha]
      have hfst := absorb_fst_no_match rest r hhead
      rw [hfst, hsnd]
      have h2 : rest.length ≤ n := Nat.le_of_succ_le_succ hl
      rw [ih rest h2 (List.pairwise_cons.mp hp).2]

/-- C9: the "same block" merge (mode 1) is idempotent: running a second
mode-1 pass on an already-merged pending list changes nothing — no ref is
removed, no count changes and no inode list grows. -/
theorem merge_same_block_idempotent (st : PrefState) :
    merge_refs (merge_refs st 1) 1 = merge_refs st 1 := by
  have h := merge_fixed (merge_refs_list ref_for_same_block st.pending).length
      (merge_refs_list ref_for_same_block st.pending) (Nat.le_refl _)
      (merge_pairwise st.pending.length st.pending (Nat.le_refl _))
  simp [merge_refs, h]

/-! ## C1: routing of decoded references -/

/-- C1: every reference decoded by the scanner (inline or keyed) that emits
a PrelimRef is routed by one fixed rule: shared-block and shared-data refs
carry the ref's offset field as explicit parent and land on the pending
queue with no search key; tree-block refs land on the missing-key queue
with root_id set, no parent and no key; extent-data refs land on the
indirect queue with root_id and the full (objectid, EXTENT_DATA, offset)
search key and no parent.  The nonzero-offset hypotheses on the shared
kinds state that the ref does carry a parent (0 means unresolved in this
data model); the non-reloc hypotheses state that a PrelimRef is emitted at
all (a data-reloc-owned ref is dropped, see the C10 theorem). -/
theorem scanner_routing (st : PrefState) (bytenr : Nat) (il : Int)
    (r : RawIref) (it : KeyedItem) (rest : List KeyedItem) :
    (r.rtype = BTRFS_SHARED_BLOCK_REF_KEY → r.offset ≠ 0 →
      inline_ref_step st bytenr il r =
        .ok (push_pending st (mk_ref 0 zeroKey (il + 1) 1 r.offset bytenr))) ∧
    (r.rtype = BTRFS_SHARED_DATA_REF_KEY → r.offset ≠ 0 →
      inline_ref_step st bytenr il r =
        .ok (push_pending st
          (mk_ref 0 zeroKey 0 r.sd_count r.offset bytenr))) ∧
    (r.rtype = BTRFS_TREE_BLOCK_REF_KEY →
      r.offset ≠ BTRFS_DATA_RELOC_TREE_OBJECTID →
      inline_ref_step st bytenr il r =
        .ok (push_missing st
          (mk_ref r.offset zeroKey (il + 1) 1 0 bytenr))) ∧
    (r.rtype = BTRFS_EXTENT_DATA_REF_KEY →
      r.d_root ≠ BTRFS_DATA_RELOC_TREE_OBJECTID →
      inline_ref_step st bytenr il r =
        .ok (push_indirect st
          (mk_ref r.d_root
            { objectid := r.d_objectid, type := BTRFS_EXTENT_DATA_KEY,
              offset := r.d_offset } 0 r.d_count 0 bytenr))) ∧
    (it.key.objectid = bytenr → it.key.type = BTRFS_SHARED_BLOCK_REF_KEY →
      it.key.offset ≠ 0 →
      add_keyed_refs bytenr il (it :: rest) st =
        add_keyed_refs bytenr il rest
          (push_pending st
            (mk_ref 0 zeroKey (il + 1) 1 it.key.offset bytenr))) ∧
    (it.key.objectid = bytenr → it.key.type = BTRFS_SHARED_DATA_REF_KEY →
      it.key.offset ≠ 0 →
      add_keyed_refs bytenr il (it :: rest) st =
        add_keyed_refs bytenr il rest
          (push_pending st
            (mk_ref 0 zeroKey 0 it.sd_count it.key.offset bytenr))) ∧
    (it.key.objectid = bytenr → it.key.type = BTRFS_TREE_BLOCK_REF_KEY →
      it.key.offset ≠ BTRFS_DATA_RELOC_TREE_OBJECTID →
      add_keyed_refs bytenr il (it :: rest) st =
        add_keyed_refs bytenr il rest
          (push_missing st
            (mk_ref it.key.offset zeroKey (il + 1) 1 0 bytenr))) ∧
    (it.key.objectid = bytenr → it.key.type = BTRFS_EXTENT_DATA_REF_KEY →
      it.d_root ≠ BTRFS_DATA_RELOC_TREE_OBJECTID →
      add_keyed_refs bytenr il (it :: rest) st =
        add_keyed_refs bytenr il rest
          (push_indirect st
            (mk_ref it.d_root
              { objectid := it.d_objectid, type := BTRFS_EXTENT_DATA_KEY,
                offset := it.d_offset } 0 it.d_count 0 bytenr))) := by
  refine ⟨?_, ?_, ?_, ?_, ?_, ?_, ?_, ?_⟩
  · intro ht hp
    simp [inline_ref_step, add_prelim_ref, ht, hp, mk_ref, push_pending,
      BTRFS_SHARED_BLOCK_REF_KEY, BTRFS_DATA_RELOC_TREE_OBJECTID]
  · intro ht hp
    simp [inline_ref_step, add_prelim_ref, ht, hp, mk_ref, push_pending,
      BTRFS_SHARED_BLOCK_REF_KEY, BTRFS_SHARED_DATA_REF_KEY,
      BTRFS_DATA_RELOC_TREE_OBJECTID]
  · intro ht hp
    simp [inline_ref_step, add_prelim_ref, ht, hp, mk_ref, push_missing,
      BTRFS_SHARED_BLOCK_REF_KEY, BTRFS_SHARED_DATA_REF_KEY,
      BTRFS_TREE_BLOCK_REF_KEY]
  · intro ht hp
    simp [inline_ref_step, add_prelim_ref, ht, hp, mk_ref, push_indirect,
      BTRFS_SHARED_BLOCK_REF_KEY, BTRFS_SHARED_DATA_REF_KEY,
      BTRFS_TREE_BLOCK_REF_KEY, BTRFS_EXTENT_DATA_REF_KEY]
  · intro ho ht hp
    simp [add_keyed_refs, add_prelim_ref, ho, ht, hp, mk_ref, push_pending,
      BTRFS_SHARED_BLOCK_REF_KEY, BTRFS_SHARED_DATA_REF_KEY,
      BTRFS_TREE_BLOCK_REF_KEY, BTRFS_DATA_RELOC_TREE_OBJECTID]
  · intro ho ht hp
    simp [add_keyed_refs, add_prelim_ref, ho, ht, hp, mk_ref, push_pending,
      BTRFS_SHARED_BLOCK_REF_KEY, BTRFS_SHARED_DATA_REF_KEY,
      BTRFS_TREE_BLOCK_REF_KEY, BTRFS_DATA_RELOC_TREE_OBJECTID]
  · intro ho ht hp
    simp [add_keyed_refs, add_prelim_ref, ho, ht, hp, mk_ref, push_missing,
      BTRFS_SHARED_BLOCK_REF_KEY, BTRFS_SHARED_DATA_REF_KEY,
      BTRFS_TREE_BLOCK_REF_KEY]
  · intro ho ht hp
    simp [add_keyed_refs, add_prelim_ref, ho, ht, hp, mk_ref, push_indirect,
      BTRFS_SHARED_BLOCK_REF_KEY, BTRFS_SHARED_DATA_REF_KEY,
      BTRFS_TREE_BLOCK_REF_KEY, BTRFS_EXTENT_DATA_REF_KEY]

/-- Witness for scanner_routing: the routing equations at concrete inputs,
one per queue target, with every hypothesis discharged. -/
theorem scanner_routing_witness :
    (inline_ref_step initPrefState 4096 2
        { rtype := 182, offset := 8192, sd_count := 0, d_root := 0,
          d_objectid := 0, d_offset := 0, d_count := 0 } =
      .ok (push_pending initPrefState
        (mk_ref 0 zeroKey 3 1 8192 4096))) ∧
    (inline_ref_step initPrefState 4096 0
        { rtype := 178, offset := 0, sd_count := 0, d_root := 5,
          d_objectid := 260, d_offset := 130, d_count := 4 } =
      .ok (push_indirect initPrefState
        (mk_ref 5 { objectid := 260, type := 108, offset := 130 }
          0 4 0 4096))) ∧
    (add_keyed_refs 4096 2
        [{ key := { objectid := 4096, type := 176, offset := 9 },
           sd_count := 0, d_root := 0, d_objectid := 0, d_offset := 0,
           d_count := 0 }] initPrefState =
      push_missing initPrefState (mk_ref 9 zeroKey 3 1 0 4096)) := by
  refine ⟨?_, ?_, ?_⟩
  · exact (scanner_routing initPrefState 4096 2
      { rtype := 182, offset := 8192, sd_count := 0, d_root := 0,
        d_objectid := 0, d_offset := 0, d_count := 0 }
      { key := zeroKey, sd_count := 0, d_root := 0, d_objectid := 0,
        d_offset := 0, d_count := 0 } []).1 (by decide) (by decide)
  · exact (scanner_routing initPrefState 4096 0
      { rtype := 178, offset := 0, sd_count := 0, d_root := 5,
        d_objectid := 260, d_offset := 130, d_count := 4 }
      { key := zeroKey, sd_count := 0, d_root := 0, d_objectid := 0,
        d_offset := 0, d_count := 0 } []).2.2.2.1 (by decide) (by decide)
  · have h := (scanner_routing initPrefState 4096 2
      { rtype := 0, offset := 0, sd_count := 0, d_root := 0,
        d_objectid := 0, d_offset := 0, d_count := 0 }
      { key := { objectid := 4096, type := 176, offset := 9 },
        sd_count := 0, d_root := 0, d_objectid := 0, d_offset := 0,
        d_count := 0 } []).2.2.2.2.2.2.1 (by decide) (by decide) (by decide)
    rw [h]
    rfl

/-! ## C7: unrecognized reference types -/

/-- C7 counterexample: the claim says an unrecognized reference type aborts
the scan of the extent with a corruption error for keyed references too.
It does not: key type 180 lies inside the backref key range
[TREE_BLOCK_REF, SHARED_DATA_REF] and matches none of the four cases, yet
__add_keyed_refs only hits WARN_ON and continues, so the scan runs on and
enqueues the following shared-block ref with no error signalled. -/
theorem keyed_unknown_type_cex :
    add_keyed_refs 500 0
      [{ key := { objectid := 500, type := 180, offset := 7 }, sd_count := 0,
         d_root := 0, d_objectid := 0, d_offset := 0, d_count := 0 },
       { key := { objectid := 500, type := 182, offset := 999 },
         sd_count := 0, d_root := 0, d_objectid := 0, d_offset := 0,
         d_count := 0 }] initPrefState =
    push_pending initPrefState (mk_ref 0 zeroKey 1 1 999 500) := by
  rfl

/-- C7 amended: an unrecognized INLINE reference type aborts the scan of
the extent with the corruption error -EUCLEAN; an unrecognized KEYED item
whose type falls inside the backref key range is skipped (WARN_ON only)
and the scan continues unchanged. -/
theorem unknown_type_amended :
    (∀ (st : PrefState) (bytenr : Nat) (il : Int) (r : RawIref),
      ¬ iref_recognized r → inline_ref_step st bytenr il r = .error EUCLEAN) ∧
    (∀ (bytenr : Nat) (il : Int) (it : KeyedItem) (rest : List KeyedItem)
        (st : PrefState),
      it.key.objectid = bytenr →
      BTRFS_TREE_BLOCK_REF_KEY ≤ it.key.type →
      it.key.type ≤ BTRFS_SHARED_DATA_REF_KEY →
      it.key.type ≠ BTRFS_TREE_BLOCK_REF_KEY →
      it.key.type ≠ BTRFS_EXTENT_DATA_REF_KEY →
      it.key.type ≠ BTRFS_SHARED_BLOCK_REF_KEY →
      it.key.type ≠ BTRFS_SHARED_DATA_REF_KEY →
      add_keyed_refs bytenr il (it :: rest) st =
        add_keyed_refs bytenr il rest st) := by
  constructor
  · intro st bytenr il r hr
    unfold iref_recognized at hr
    push_neg at hr
    obtain ⟨h1, h2, h3, h4⟩ := hr
    simp [inline_ref_step, h1, h2, h3, h4]
  · intro bytenr il it rest st ho hge hle h1 h2 h3 h4
    have hnlt : ¬ (it.key.type < BTRFS_TREE_BLOCK_REF_KEY) :=
      Nat.not_lt.mpr hge
    have hnlt2 : ¬ (BTRFS_SHARED_DATA_REF_KEY < it.key.type) :=
      Nat.not_lt.mpr hle
    simp [add_keyed_refs, ho, hnlt, hnlt2, h1, h2, h3, h4]

/-- Witness for unknown_type_amended: inline type 179 aborts with -EUCLEAN,
keyed type 180 is skipped. -/
theorem unknown_type_witness :
    (inline_ref_step initPrefState 4096 0
        { rtype := 179, offset := 0, sd_count := 0, d_root := 0,
          d_objectid := 0, d_offset := 0, d_count := 0 } =
      .error EUCLEAN) ∧
    (add_keyed_refs 500 0
        [{ key := { objectid := 500, type := 180, offset := 7 },
           sd_count := 0, d_root := 0, d_objectid := 0, d_offset := 0,
           d_count := 0 }] initPrefState =
      add_keyed_refs 500 0 [] initPrefState) := by
  constructor
  · exact unknown_type_amended.1 initPrefState 4096 0
      { rtype := 179, offset := 0, sd_count := 0, d_root := 0,
        d_objectid := 0, d_offset := 0, d_count := 0 } (by
        unfold iref_recognized
        decide)
  · exact unknown_type_amended.2 500 0
      { key := { objectid := 500, type := 180, offset := 7 }, sd_count := 0,
        d_root := 0, d_objectid := 0, d_offset := 0, d_count := 0 } []
      initPrefState (by decide) (by decide) (by decide) (by decide)
      (by decide) (by decide) (by decide)

/-! ## C10: data-reloc-tree references are dropped at enqueue time -/

/-- C10: a decoded reference owned by the data relocation tree is silently
discarded by __add_prelim_ref with a success return: the state is
unchanged, so the ref reaches none of the three queues, and scanning a
reference list containing such a ref (inline or keyed, tree-block or
extent-data) produces exactly the state produced without it — hence it
contributes no root to a roots output, no parent to a parents output and
no count to any merged total, all of which are functions of the state. -/
theorem data_reloc_dropped :
    (∀ (st : PrefState) (key : Option BtrfsKey) (level : Int)
        (parent wdb : Nat) (count : Int),
      add_prelim_ref st BTRFS_DATA_RELOC_TREE_OBJECTID key level parent wdb
        count = st) ∧
    (∀ (bytenr : Nat) (il : Int) (l1 l2 : List RawIref) (st : PrefState)
        (r : RawIref),
      (r.rtype = BTRFS_TREE_BLOCK_REF_KEY ∧
          r.offset = BTRFS_DATA_RELOC_TREE_OBJECTID) ∨
        (r.rtype = BTRFS_EXTENT_DATA_REF_KEY ∧
          r.d_root = BTRFS_DATA_RELOC_TREE_OBJECTID) →
      fold_inline bytenr il (l1 ++ r :: l2) st =
        fold_inline bytenr il (l1 ++ l2) st) ∧
    (∀ (bytenr : Nat) (il : Int) (it : KeyedItem) (rest : List KeyedItem)
        (st : PrefState),
      it.key.objectid = bytenr →
      (it.key.type = BTRFS_TREE_BLOCK_REF_KEY ∧
          it.key.offset = BTRFS_DATA_RELOC_TREE_OBJECTID) ∨
        (it.key.type = BTRFS_EXTENT_DATA_REF_KEY ∧
          it.d_root = BTRFS_DATA_RELOC_TREE_OBJECTID) →
      add_keyed_refs bytenr il (it :: rest) st =
        add_keyed_refs bytenr il rest st) := by
  refine ⟨?_, ?_, ?_⟩
  · intro st key level parent wdb count
    simp [add_prelim_ref]
  · intro bytenr il l1 l2 st r hr
    have hstep : ∀ st2 : PrefState,
        inline_ref_step st2 bytenr il r = .ok st2 := by
      intro st2
      rcases hr with ⟨ht, hroot⟩ | ⟨ht, hroot⟩
      · simp [inline_ref_step, add_prelim_ref, ht, hroot,
          BTRFS_SHARED_BLOCK_REF_KEY, BTRFS_SHARED_DATA_REF_KEY,
          BTRFS_TREE_BLOCK_REF_KEY]
      · simp [inline_ref_step, add_prelim_ref, ht, hroot,
          BTRFS_SHARED_BLOCK_REF_KEY, BTRFS_SHARED_DATA_REF_KEY,
          BTRFS_TREE_BLOCK_REF_KEY, BTRFS_EXTENT_DATA_REF_KEY]
    induction l1 generalizing st with
    | nil =>
      simp only [List.nil_append, fold_inline, hstep st]
    | cons a l1 ih =>
      simp only [List.cons_append, fold_inline]
      cases he : inline_ref_step st bytenr il a with
      | error e => simp [he]
      | ok st2 =>
        simp only [he]
        exact ih st2
  · intro bytenr il it rest st ho hr
    rcases hr with ⟨ht, hroot⟩ | ⟨ht, hroot⟩
    · simp [add_keyed_refs, add_prelim_ref, ho, ht, hroot,
        BTRFS_SHARED_BLOCK_REF_KEY, BTRFS_SHARED_DATA_REF_KEY,
        BTRFS_TREE_BLOCK_REF_KEY]
    · simp [add_keyed_refs, add_prelim_ref, ho, ht, hroot,
        BTRFS_SHARED_BLOCK_REF_KEY, BTRFS_SHARED_DATA_REF_KEY,
        BTRFS_TREE_BLOCK_REF_KEY, BTRFS_EXTENT_DATA_REF_KEY]

/-- Witness for data_reloc_dropped: a concrete extent-data ref owned by the
data relocation tree vanishes from an inline scan. -/
theorem data_reloc_dropped_witness :
    fold_inline 4096 0
      [{ rtype := 178, offset := 0, sd_count := 0,
         d_root := 18446744073709551607, d_objectid := 3, d_offset := 0,
         d_count := 2 }] initPrefState =
    fold_inline 4096 0 [] initPrefState := by
  exact data_reloc_dropped.2.1 4096 0 []
    [] initPrefState
    { rtype := 178, offset := 0, sd_count := 0,
      d_root := 18446744073709551607, d_objectid := 3, d_offset := 0,
      d_count := 2 } (Or.inr ⟨rfl, rfl⟩)

/-! ## C6: check_extent_in_eb coverage -/

/-- C6 counterexample: the claim says a matching file-extent item produces
an (inode, file_offset) pair IF AND ONLY IF the item's logical range
covers the queried position.  A compressed item (compression != 0) skips
the coverage test entirely: range [0, 4) does not cover position 50, yet a
pair is recorded. -/
theorem extent_in_eb_cex :
    check_extent_in_eb { objectid := 10, type := 108, offset := 100 }
      { compression := 1, encryption := 0, other_encoding := 0, offset := 0,
        num_bytes := 4, disk_bytenr := 0 } 50 [] =
      (0, [{ inum := 10, offset := 100 }]) ∧
    ¬ ((0 : Nat) ≤ 50 ∧ (50 : Nat) < 0 + 4) := by
  exact ⟨rfl, by decide⟩

/-- C6 amended: for an item with no compression, no encryption and no
other encoding, a pair is produced iff the item's logical range
[offset, offset + num_bytes) covers the queried position, and the pair is
(key.objectid, key.offset + (pos - offset)); an item with any of those
encodings set always produces the pair (key.objectid, key.offset + 0)
regardless of coverage. -/
theorem extent_in_eb_amended (key : BtrfsKey) (fi : FileExtentItem)
    (pos : Nat) (eie : List InodeElem) :
    (fi.compression = 0 → fi.encryption = 0 → fi.other_encoding = 0 →
      (((check_extent_in_eb key fi pos eie).2 ≠ eie) ↔
        (fi.offset ≤ pos ∧ pos < fi.offset + fi.num_bytes)) ∧
      (fi.offset ≤ pos → pos < fi.offset + fi.num_bytes →
        check_extent_in_eb key fi pos eie =
          (0, { inum := key.objectid,
                offset := key.offset + (pos - fi.offset) } :: eie))) ∧
    (¬ (fi.compression = 0 ∧ fi.encryption = 0 ∧ fi.other_encoding = 0) →
      check_extent_in_eb key fi pos eie =
        (0, { inum := key.objectid, offset := key.offset + 0 } :: eie)) := by
  constructor
  · intro h1 h2 h3
    refine ⟨?_, ?_⟩
    · by_cases hcov : pos < fi.offset ∨ fi.offset + fi.num_bytes ≤ pos
      · have heq : check_extent_in_eb key fi pos eie = (1, eie) := by
          simp [check_extent_in_eb, h1, h2, h3, hcov]
        rw [heq]
        simp only [ne_eq, not_true_eq_false, false_iff, not_and, Nat.not_lt]
        omega
      · have heq : check_extent_in_eb key fi pos eie =
            (0, { inum := key.objectid,
                  offset := key.offset + (pos - fi.offset) } :: eie) := by
          simp [check_extent_in_eb, h1, h2, h3, hcov]
        rw [heq]
        constructor
        · intro _
          omega
        · intro _
          exact List.cons_ne_self _ _
    · intro hle hlt
      have hcov : ¬ (pos < fi.offset ∨ fi.offset + fi.num_bytes ≤ pos) := by
        omega
      simp [check_extent_in_eb, h1, h2, h3, hcov]
  · intro h
    simp only [check_extent_in_eb, if_neg h]

/-! ## C5: the level-0 scan bound of add_all_parents -/

theorem ulist_add_merge_mem (l : List (Nat × List InodeElem)) (v : Nat)
    (aux : List InodeElem) (w : Nat) (a : List InodeElem)
    (h : (v, aux) ∈ ulist_add_merge l w a) :
    (∃ aux2, (v, aux2) ∈ l) ∨ v = w := by
  unfold ulist_add_merge at h
  by_cases hin : l.any (fun p => p.1 = w)
  · rw [if_pos hin] at h
    obtain ⟨p, hp, heq⟩ := List.mem_map.mp h
    by_cases hw : p.1 = w
    · rw [if_pos hw] at heq
      left
      exact ⟨p.2, by
        have : v = p.1 := by
          have := congrArg Prod.fst heq
          simp at this
          omega
        rw [this]
        exact hp⟩
    · rw [if_neg hw] at heq
      left
      exact ⟨aux, heq ▸ hp⟩
  · rw [if_neg hin] at h
    rcases List.mem_append.mp h with h2 | h2
    · exact Or.inl ⟨aux, h2⟩
    · right
      have := List.mem_singleton.mp h2
      exact congrArg Prod.fst this

theorem aap_loop_cons (kfs : BtrfsKey) (wdb tr : Nat) (pos : Option Nat)
    (it : LeafItem) (rest : List LeafItem) (cnt : Nat)
    (parents : List (Nat × List InodeElem)) :
    add_all_parents_loop kfs wdb tr pos (it :: rest) cnt parents =
      if tr ≤ cnt then (parents, cnt)
      else if it.key.objectid ≠ kfs.objectid ∨
          it.key.type ≠ BTRFS_EXTENT_DATA_KEY then (parents, cnt)
      else if it.fi.disk_bytenr = wdb then
        match pos with
        | some p =>
          let res := check_extent_in_eb it.key it.fi p []
          if 0 < res.1 then
            add_all_parents_loop kfs wdb tr pos rest (cnt + 1) parents
          else
            add_all_parents_loop kfs wdb tr pos rest (cnt + 1)
              (ulist_add_merge parents it.ebStart res.2)
        | none =>
          add_all_parents_loop kfs wdb tr pos rest (cnt + 1)
            (ulist_add_merge parents it.ebStart [])
      else add_all_parents_loop kfs wdb tr pos rest cnt parents := by
  cases pos <;> rw [add_all_parents_loop]

theorem aap_loop_count_le (kfs : BtrfsKey) (wdb tr : Nat)
    (pos : Option Nat) :
    ∀ (items : List LeafItem) (cnt : Nat)
      (parents : List (Nat × List InodeElem)),
    cnt ≤ tr →
    (add_all_parents_loop kfs wdb tr pos items cnt parents).2 ≤ tr := by
  intro items
  induction items with
  | nil =>
    intro cnt parents h
    simpa [add_all_parents_loop] using h
  | cons it rest ih =>
    intro cnt parents h
    rw [aap_loop_cons]
    by_cases h1 : tr ≤ cnt
    · simp [h1, h]
    · simp only [if_neg h1]
      by_cases h2 : it.key.objectid ≠ kfs.objectid ∨
          it.key.type ≠ BTRFS_EXTENT_DATA_KEY
      · simp [h2, h]
      · simp only [if_neg h2]
        have hlt : cnt + 1 ≤ tr := by omega
        by_cases h3 : it.fi.disk_bytenr = wdb
        · simp only [if_pos h3]
          cases pos with
          | some p =>
            by_cases h4 : 0 < (check_extent_in_eb it.key it.fi p []).1
            · simp only [if_pos h4]
              exact ih _ _ hlt
            · simp only [if_neg h4]
              exact ih _ _ hlt
          | none => exact ih _ _ hlt
        · simp only [if_neg h3]
          exact ih _ _ h

theorem aap_loop_origin (kfs : BtrfsKey) (wdb tr : Nat)
    (pos : Option Nat) :
    ∀ (items : List LeafItem) (cnt : Nat)
      (parents : List (Nat × List InodeElem)) (v : Nat)
      (aux : List InodeElem),
    (v, aux) ∈ (add_all_parents_loop kfs wdb tr pos items cnt parents).1 →
    (∃ aux2, (v, aux2) ∈ parents) ∨
      ∃ it ∈ items, it.key.objectid = kfs.objectid ∧
        it.key.type = BTRFS_EXTENT_DATA_KEY ∧ it.fi.disk_bytenr = wdb ∧
        v = it.ebStart := by
  intro items
  induction items with
  | nil =>
    intro cnt parents v aux h
    simp only [add_all_parents_loop] at h
    exact Or.inl ⟨aux, h⟩
  | cons it rest ih =>
    intro cnt parents v aux h
    rw [aap_loop_cons] at h
    by_cases h1 : tr ≤ cnt
    · rw [if_pos h1] at h
      exact Or.inl ⟨aux, h⟩
    · rw [if_neg h1] at h
      by_cases h2 : it.key.objectid ≠ kfs.objectid ∨
          it.key.type ≠ BTRFS_EXTENT_DATA_KEY
      · rw [if_pos h2] at h
        exact Or.inl ⟨aux, h⟩
      · rw [if_neg h2] at h
        push_neg at h2
        by_cases h3 : it.fi.disk_bytenr = wdb
        · rw [if_pos h3] at h
          have hbase : ∀ (a2 : List InodeElem),
              (v, aux) ∈ (add_all_parents_loop kfs wdb tr pos rest (cnt + 1)
                (ulist_add_merge parents it.ebStart a2)).1 →
              (∃ aux2, (v, aux2) ∈ parents) ∨
                ∃ x ∈ it :: rest, x.key.objectid = kfs.objectid ∧
                  x.key.type = BTRFS_EXTENT_DATA_KEY ∧
                  x.fi.disk_bytenr = wdb ∧ v = x.ebStart := by
            intro a2 hmem
            rcases ih _ _ _ _ hmem with ⟨aux2, hmem2⟩ | ⟨x, hx, hprop⟩
            · rcases ulist_add_merge_mem parents v aux2 it.ebStart a2 hmem2
                with hold | heq
              · exact Or.inl hold
              · exact Or.inr ⟨it, List.mem_cons_self it rest,
                  h2.1, h2.2, h3, heq⟩
            · exact Or.inr ⟨x, List.mem_cons_of_mem it hx, hprop⟩
          cases pos with
          | some p =>
            by_cases h4 : 0 < (check_extent_in_eb it.key it.fi p []).1
            · simp only [if_pos h4] at h
              rcases ih _ _ _ _ h with ⟨aux2, hm⟩ | ⟨x, hx, hprop⟩
              · exact Or.inl ⟨aux2, hm⟩
              · exact Or.inr ⟨x, List.mem_cons_of_mem it hx, hprop⟩
            · simp only [if_neg h4] at h
              exact hbase _ h
          | none => exact hbase _ h
        · rw [if_neg h3] at h
          rcases ih _ _ _ _ h with ⟨aux2, hm⟩ | ⟨x, hx, hprop⟩
          · exact Or.inl ⟨aux2, hm⟩
          · exact Or.inr ⟨x, List.mem_cons_of_mem it hx, hprop⟩

/-- C5 counterexample: the claim bounds the number of matching items by the
ref's declared count.  The loop of add_all_parents is bounded by the
extent's TOTAL reference count instead: a ref declaring count 1, scanned
with total_refs = 2 over a leaf holding two matching extent-data items,
records 2 matches. -/
theorem parents_count_bound_cex :
    add_all_parents c5_ref 0 0 2 none [c5_item1, c5_item2] =
      ([(77, [])], 2) ∧
    (2 : Int) > c5_ref.count := by
  exact ⟨rfl, by decide⟩

/-- C5 amended: the level-0 forward scan of add_all_parents records
parents for at most the extent's TOTAL reference count (the total_refs
argument, not the ref's own declared count) of matching items before
stopping, and every recorded parent address is the leaf of a scanned item
matching the ref's objectid, the EXTENT_DATA type and the wanted disk
byte. -/
theorem parents_count_bound_amended (ref : PrelimRef)
    (node_start total_refs : Nat) (pos : Option Nat)
    (items : List LeafItem) :
    (add_all_parents ref 0 node_start total_refs pos items).2 ≤
      total_refs ∧
    (∀ (v : Nat) (aux : List InodeElem),
      (v, aux) ∈ (add_all_parents ref 0 node_start total_refs pos items).1 →
      ∃ it ∈ items, it.key.objectid = ref.key_for_search.objectid ∧
        it.key.type = BTRFS_EXTENT_DATA_KEY ∧
        it.fi.disk_bytenr = ref.wanted_disk_byte ∧ v = it.ebStart) := by
  constructor
  · have h := aap_loop_count_le ref.key_for_search ref.wanted_disk_byte
      total_refs pos items 0 [] (Nat.zero_le _)
    simpa [add_all_parents] using h
  · intro v aux hmem
    simp only [add_all_parents, ne_eq, not_true_eq_false, if_neg,
      not_false_iff] at hmem
    rcases aap_loop_origin ref.key_for_search ref.wanted_disk_byte
        total_refs pos items 0 [] v aux hmem with ⟨aux2, hm⟩ | h
    · simp at hm
    · exact h

/-- Witness for parents_count_bound_amended: the concrete two-item scan of
the counterexample respects the total_refs bound and parent origin. -/
theorem parents_count_bound_witness :
    (add_all_parents c5_ref 0 0 2 none [c5_item1, c5_item2]).2 ≤ 2 ∧
    ∃ it ∈ [c5_item1, c5_item2], (77 : Nat) = it.ebStart := by
  constructor
  · exact (parents_count_bound_amended c5_ref 0 2 none
      [c5_item1, c5_item2]).1
  · obtain ⟨it, hit, _, _, _, hv⟩ :=
      (parents_count_bound_amended c5_ref 0 2 none [c5_item1, c5_item2]).2
        77 [] (by decide)
    exact ⟨it, hit, hv⟩

/-- Witness for extent_in_eb_amended: an uncompressed item with range
[2, 10) covering position 6 yields the pair (5, 44). -/
theorem extent_in_eb_witness :
    check_extent_in_eb { objectid := 5, type := 108, offset := 40 }
      { compression := 0, encryption := 0, other_encoding := 0, offset := 2,
        num_bytes := 8, disk_bytenr := 0 } 6 [] =
      (0, [{ inum := 5, offset := 44 }]) := by
  have h := (extent_in_eb_amended { objectid := 5, type := 108, offset := 40 }
    { compression := 0, encryption := 0, other_encoding := 0, offset := 2,
      num_bytes := 8, disk_bytenr := 0 } 6 []).1 rfl rfl rfl
  exact h.2 (by decide) (by decide)

/-! ## C2: count conservation across the scan and merge pass 1 -/

theorem add_prelim_ref_sum (st : PrefState) (root : Nat)
    (key : Option BtrfsKey) (lvl : Int) (par wdb : Nat) (cnt : Int) :
    state_sum (add_prelim_ref st root key lvl par wdb cnt) =
      state_sum st +
        (if root = BTRFS_DATA_RELOC_TREE_OBJECTID then 0 else cnt) := by
  by_cases h : root = BTRFS_DATA_RELOC_TREE_OBJECTID
  · simp [add_prelim_ref, h]
  · cases key with
    | none =>
      by_cases hp : par ≠ 0 <;>
        simp [add_prelim_ref, h, hp, state_sum, sum_counts] <;> ring
    | some k =>
      by_cases hp : par ≠ 0 <;>
        simp [add_prelim_ref, h, hp, state_sum, sum_counts] <;> ring

theorem fold_inline_sum (bytenr : Nat) (il : Int) :
    ∀ (l : List RawIref) (st : PrefState),
    (∀ r ∈ l, iref_recognized r ∧ iref_not_reloc r) →
    ∃ st2, fold_inline bytenr il l st = .ok st2 ∧
      state_sum st2 = state_sum st + (l.map iref_count).sum := by
  intro l
  induction l with
  | nil =>
    intro st _
    exact ⟨st, rfl, by simp⟩
  | cons r rs ih =>
    intro st h
    have hr := h r (List.mem_cons_self r rs)
    have hstep : ∃ st1, inline_ref_step st bytenr il r = .ok st1 ∧
        state_sum st1 = state_sum st + iref_count r := by
      rcases hr.1 with ht | ht | ht | ht
      · have he : inline_ref_step st bytenr il r =
            .ok (add_prelim_ref st r.offset none (il + 1) 0 bytenr 1) := by
          simp [inline_ref_step, ht, BTRFS_TREE_BLOCK_REF_KEY,
            BTRFS_SHARED_BLOCK_REF_KEY, BTRFS_SHARED_DATA_REF_KEY]
        refine ⟨_, he, ?_⟩
        rw [add_prelim_ref_sum]
        simp [iref_count, ht, hr.2.1 ht, BTRFS_TREE_BLOCK_REF_KEY,
          BTRFS_SHARED_BLOCK_REF_KEY, BTRFS_SHARED_DATA_REF_KEY]
      · have he : inline_ref_step st bytenr il r =
            .ok (add_prelim_ref st r.d_root
              (some { objectid := r.d_objectid,
                      type := BTRFS_EXTENT_DATA_KEY,
                      offset := r.d_offset })
              0 0 bytenr r.d_count) := by
          simp [inline_ref_step, ht, BTRFS_TREE_BLOCK_REF_KEY,
            BTRFS_SHARED_BLOCK_REF_KEY, BTRFS_SHARED_DATA_REF_KEY,
            BTRFS_EXTENT_DATA_REF_KEY]
        refine ⟨_, he, ?_⟩
        rw [add_prelim_ref_sum]
        simp [iref_count, ht, hr.2.2 ht, BTRFS_TREE_BLOCK_REF_KEY,
          BTRFS_SHARED_BLOCK_REF_KEY, BTRFS_SHARED_DATA_REF_KEY,
          BTRFS_EXTENT_DATA_REF_KEY]
      · have he : inline_ref_step st bytenr il r =
            .ok (add_prelim_ref st 0 none (il + 1) r.offset bytenr 1) := by
          simp [inline_ref_step, ht, BTRFS_SHARED_BLOCK_REF_KEY]
        refine ⟨_, he, ?_⟩
        rw [add_prelim_ref_sum]
        simp [iref_count, ht, BTRFS_SHARED_BLOCK_REF_KEY,
          BTRFS_DATA_RELOC_TREE_OBJECTID]
      · have he : inline_ref_step st bytenr il r =
            .ok (add_prelim_ref st 0 none 0 r.offset bytenr r.sd_count) := by
          simp [inline_ref_step, ht, BTRFS_SHARED_BLOCK_REF_KEY,
            BTRFS_SHARED_DATA_REF_KEY]
        refine ⟨_, he, ?_⟩
        rw [add_prelim_ref_sum]
        simp [iref_count, ht, BTRFS_SHARED_BLOCK_REF_KEY,
          BTRFS_SHARED_DATA_REF_KEY, BTRFS_DATA_RELOC_TREE_OBJECTID]
    obtain ⟨st1, he, hsum⟩ := hstep
    obtain ⟨st2, he2, hsum2⟩ :=
      ih st1 fun x hx => h x (List.mem_cons_of_mem r hx)
    refine ⟨st2, ?_, ?_⟩
    · simp only [fold_inline, he]
      exact he2
    · rw [hsum2, hsum]
      simp only [List.map_cons, List.sum_cons]
      ring

theorem add_keyed_refs_sum (bytenr : Nat) (il : Int) :
    ∀ (l : List KeyedItem) (st : PrefState),
    (∀ it ∈ l, keyed_ok bytenr it) →
    state_sum (add_keyed_refs bytenr il l st) =
      state_sum st + (l.map keyed_count).sum := by
  intro l
  induction l with
  | nil =>
    intro st _
    simp [add_keyed_refs]
  | cons it rest ih =>
    intro st h
    obtain ⟨ho, htypes, hnr1, hnr2⟩ := h it (List.mem_cons_self it rest)
    have hrest : ∀ x ∈ rest, keyed_ok bytenr x :=
      fun x hx => h x (List.mem_cons_of_mem it hx)
    rcases htypes with ht | ht | ht | ht
    · have he : add_keyed_refs bytenr il (it :: rest) st =
          add_keyed_refs bytenr il rest
            (add_prelim_ref st it.key.offset none (il + 1) 0 bytenr 1) := by
        simp [add_keyed_refs, ho, ht, BTRFS_TREE_BLOCK_REF_KEY,
          BTRFS_SHARED_BLOCK_REF_KEY, BTRFS_SHARED_DATA_REF_KEY]
      rw [he, ih _ hrest, add_prelim_ref_sum]
      simp only [List.map_cons, List.sum_cons]
      rw [if_neg (hnr1 ht)]
      simp [keyed_count, ht, BTRFS_TREE_BLOCK_REF_KEY,
        BTRFS_SHARED_BLOCK_REF_KEY, BTRFS_SHARED_DATA_REF_KEY]
      ring
    · have he : add_keyed_refs bytenr il (it :: rest) st =
          add_keyed_refs bytenr il rest
            (add_prelim_ref st it.d_root
              (some { objectid := it.d_objectid,
                      type := BTRFS_EXTENT_DATA_KEY,
                      offset := it.d_offset })
              0 0 bytenr it.d_count) := by
        simp [add_keyed_refs, ho, ht, BTRFS_TREE_BLOCK_REF_KEY,
          BTRFS_SHARED_BLOCK_REF_KEY, BTRFS_SHARED_DATA_REF_KEY,
          BTRFS_EXTENT_DATA_REF_KEY]
      rw [he, ih _ hrest, add_prelim_ref_sum]
      simp only [List.map_cons, List.sum_cons]
      rw [if_neg (hnr2 ht)]
      simp [keyed_count, ht, BTRFS_TREE_BLOCK_REF_KEY,
        BTRFS_SHARED_BLOCK_REF_KEY, BTRFS_SHARED_DATA_REF_KEY,
        BTRFS_EXTENT_DATA_REF_KEY]
      ring
    · have he : add_keyed_refs bytenr il (it :: rest) st =
          add_keyed_refs bytenr il rest
            (add_prelim_ref st 0 none (il + 1) it.key.offset bytenr 1) := by
        simp [add_keyed_refs, ho, ht, BTRFS_TREE_BLOCK_REF_KEY,
          BTRFS_SHARED_BLOCK_REF_KEY, BTRFS_SHARED_DATA_REF_KEY]
      rw [he, ih _ hrest, add_prelim_ref_sum]
      simp only [List.map_cons, List.sum_cons]
      simp [keyed_count, ht, BTRFS_SHARED_BLOCK_REF_KEY,
        BTRFS_SHARED_DATA_REF_KEY, BTRFS_DATA_RELOC_TREE_OBJECTID]
      ring
    · have he : add_keyed_refs bytenr il (it :: rest) st =
          add_keyed_refs bytenr il rest
            (add_prelim_ref st 0 none 0 it.key.offset bytenr it.sd_count) := by
        simp [add_keyed_refs, ho, ht, BTRFS_TREE_BLOCK_REF_KEY,
          BTRFS_SHARED_BLOCK_REF_KEY, BTRFS_SHARED_DATA_REF_KEY]
      rw [he, ih _ hrest, add_prelim_ref_sum]
      simp only [List.map_cons, List.sum_cons]
      simp [keyed_count, ht, BTRFS_SHARED_BLOCK_REF_KEY,
        BTRFS_SHARED_DATA_REF_KEY, BTRFS_DATA_RELOC_TREE_OBJECTID]
      ring

theorem add_missing_keys_list_sum (fk : Nat → Option BtrfsKey)
    (hfk : ∀ b, (fk b).isSome) :
    ∀ (miss pend ind : List PrelimRef),
    ∃ pend2 ind2,
      add_missing_keys_list fk miss pend ind = .ok (pend2, ind2) ∧
      sum_counts pend2 + sum_counts ind2 =
        sum_counts pend + sum_counts ind + sum_counts miss := by
  intro miss
  induction miss with
  | nil =>
    intro pend ind
    exact ⟨pend, ind, rfl, by simp [sum_counts]⟩
  | cons r rest ih =>
    intro pend ind
    obtain ⟨k, hk⟩ := Option.isSome_iff_exists.mp (hfk r.wanted_disk_byte)
    by_cases hp : r.parent ≠ 0
    · obtain ⟨pend2, ind2, he, hsum⟩ :=
        ih (pend ++ [{ r with key_for_search := k }]) ind
      refine ⟨pend2, ind2, ?_, ?_⟩
      · simp only [add_missing_keys_list, hk]
        rw [if_pos (show ({ r with key_for_search := k } :
          PrelimRef).parent ≠ 0 from hp)]
        exact he
      · rw [hsum]
        simp [sum_counts]
        ring
    · obtain ⟨pend2, ind2, he, hsum⟩ :=
        ih pend (ind ++ [{ r with key_for_search := k }])
      refine ⟨pend2, ind2, ?_, ?_⟩
      · simp only [add_missing_keys_list, hk]
        rw [if_neg (show ¬ ({ r with key_for_search := k } :
          PrelimRef).parent ≠ 0 from hp)]
        exact he
      · rw [hsum]
        simp [sum_counts]
        ring

theorem add_missing_keys_sum (fk : Nat → Option BtrfsKey)
    (hfk : ∀ b, (fk b).isSome) (st : PrefState) :
    ∃ st2, add_missing_keys fk st = .ok st2 ∧
      state_sum st2 = state_sum st ∧ st2.pending_missing_keys = [] := by
  obtain ⟨pend2, ind2, he, hsum⟩ := add_missing_keys_list_sum fk hfk
    st.pending_missing_keys st.pending st.pending_indirect_refs
  refine ⟨{ pending := pend2, pending_missing_keys := [],
            pending_indirect_refs := ind2 }, ?_, ?_, rfl⟩
  · simp only [add_missing_keys, he]
  · simp only [state_sum, sum_counts, List.map_nil, List.sum_nil] at hsum ⊢
    omega

theorem absorb_sum (m : PrelimRef → PrelimRef → Bool) :
    ∀ (l : List PrelimRef) (r : PrelimRef),
    (merge_absorb m r l).1.count + sum_counts (merge_absorb m r l).2 =
      r.count + sum_counts l := by
  intro l
  induction l with
  | nil => intro r; simp [merge_absorb, sum_counts]
  | cons x xs ih =>
    intro r
    by_cases h : m r x = true
    · simp only [merge_absorb, h, if_pos]
      rw [ih]
      simp [sum_counts]
      ring
    · simp only [merge_absorb, h, if_neg, Bool.false_eq_true, not_false_iff]
      have := ih r
      simp only [sum_counts, List.map_cons, List.sum_cons] at this ⊢
      omega

theorem merge_refs_list_sum (m : PrelimRef → PrelimRef → Bool) (n : Nat) :
    ∀ (l : List PrelimRef), l.length ≤ n →
    sum_counts (merge_refs_list m l) = sum_counts l := by
  induction n with
  | zero =>
    intro l hl
    have : l = [] := List.length_eq_zero.mp (Nat.le_zero.mp hl)
    subst this
    simp [merge_refs_list]
  | succ n ih =>
    intro l hl
    match l with
    | [] => simp [merge_refs_list]
    | r :: rest =>
      rw [merge_refs_list]
      have hlen : (merge_absorb m r rest).2.length ≤ n := by
        have := merge_absorb_len_le m r rest
        have h2 : rest.length ≤ n := Nat.le_of_succ_le_succ hl
        omega
      have habs := absorb_sum m rest r
      have hih := ih _ hlen
      simp only [sum_counts, List.map_cons, List.sum_cons] at habs hih ⊢
      omega

theorem merge_refs_sum (st : PrefState) (mode : Nat) :
    state_sum (merge_refs st mode) = state_sum st := by
  simp only [merge_refs, state_sum]
  congr 1
  · congr 1
    exact merge_refs_list_sum _ st.pending.length st.pending (Nat.le_refl _)

/-- C2 counterexample: an extent whose single reference is an extent-data
ref owned by the data relocation tree.  The header's total reference count
(1) counts that ref, but __add_prelim_ref drops it, so after the scan and
merge pass 1 every queue is empty and the summed count 0 differs from the
header count. -/
theorem count_conservation_cex :
    find_parent_nodes_scan (fun _ => none) 4096 c2_item [] =
      .ok (initPrefState, 1) ∧
    state_sum initPrefState ≠ (c2_item.refs : Int) := by
  constructor
  · simp [find_parent_nodes_scan, add_inline_refs, fold_inline,
      inline_ref_step, add_prelim_ref, add_keyed_refs, add_missing_keys,
      add_missing_keys_list, merge_refs, merge_refs_list, info_level_of,
      c2_item, initPrefState, BTRFS_SHARED_BLOCK_REF_KEY,
      BTRFS_SHARED_DATA_REF_KEY, BTRFS_TREE_BLOCK_REF_KEY,
      BTRFS_EXTENT_DATA_REF_KEY, BTRFS_DATA_RELOC_TREE_OBJECTID,
      BTRFS_EXTENT_ITEM_KEY, BTRFS_METADATA_ITEM_KEY,
      BTRFS_EXTENT_FLAG_TREE_BLOCK]
  · decide

/-- C2 amended: for an extent whose decoded references are all recognized,
none owned by the data relocation tree, and whose header count equals the
sum of the decoded counts (the on-disk well-formedness invariant), the sum
of `count` over all three queues after merge pass 1 equals the header's
total reference count.  (Refs owned by the data relocation tree are
dropped at enqueue time, so their counts are missing from the total.) -/
theorem count_conservation_amended (fk : Nat → Option BtrfsKey)
    (bytenr : Nat) (item : ExtentItemRec) (keyed : List KeyedItem)
    (h1 : ∀ r ∈ item.inline, iref_recognized r ∧ iref_not_reloc r)
    (h2 : ∀ it ∈ keyed, keyed_ok bytenr it)
    (h3 : (item.refs : Int) =
      (item.inline.map iref_count).sum + (keyed.map keyed_count).sum)
    (hfk : ∀ b, (fk b).isSome) :
    ∃ st, find_parent_nodes_scan fk bytenr item keyed = .ok (st, item.refs) ∧
      state_sum st = (item.refs : Int) := by
  obtain ⟨st1, he1, hs1⟩ :=
    fold_inline_sum bytenr (info_level_of item) item.inline initPrefState h1
  have hinit : state_sum initPrefState = 0 := rfl
  have he_inline : add_inline_refs initPrefState bytenr item =
      .ok (st1, info_level_of item, item.refs) := by
    simp only [add_inline_refs, he1]
  have hs2 := add_keyed_refs_sum bytenr (info_level_of item) keyed st1 h2
  obtain ⟨st3, he3, hs3, _⟩ := add_missing_keys_sum fk hfk
    (add_keyed_refs bytenr (info_level_of item) keyed st1)
  refine ⟨merge_refs st3 1, ?_, ?_⟩
  · simp only [find_parent_nodes_scan, he_inline, he3]
  · rw [merge_refs_sum, hs3, hs2, hs1, hinit, h3]
    ring

/-- Witness for count_conservation_amended: the well-formed one-ref extent
c2_witness_item conserves its header count 1 through scan and merge. -/
theorem count_conservation_witness :
    ∃ st, find_parent_nodes_scan (fun _ => some zeroKey) 4096
        c2_witness_item [] = .ok (st, c2_witness_item.refs) ∧
      state_sum st = (c2_witness_item.refs : Int) := by
  exact count_conservation_amended (fun _ => some zeroKey) 4096
    c2_witness_item [] (by decide) (by decide) (by decide) (fun b => rfl)

/-! ## C3: termination of the find_all_roots iteration -/

theorem nodup_subset_length {l univ : List Nat} (hn : l.Nodup)
    (hs : ∀ x ∈ l, x ∈ univ) : l.length ≤ univ.length := by
  have h1 : l.toFinset.card = l.length := List.toFinset_card_of_nodup hn
  have h2 : l.toFinset ⊆ univ.toFinset := by
    intro x hx
    rw [List.mem_toFinset] at hx ⊢
    exact hs x hx
  calc l.length = l.toFinset.card := h1.symm
    _ ≤ univ.toFinset.card := Finset.card_le_card h2
    _ ≤ univ.length := List.toFinset_card_le univ

theorem ulist_add_mem_eq (u : Ulist) (v : Nat) (h : v ∈ u.nodes) :
    ulist_add u v = u := by
  simp [ulist_add, h]

theorem ulist_add_nodup (u : Ulist) (v : Nat) (h : u.nodes.Nodup) :
    (ulist_add u v).nodes.Nodup := by
  unfold ulist_add
  by_cases hv : v ∈ u.nodes
  · simpa [hv] using h
  · rw [if_neg hv]
    refine List.Nodup.append h (List.nodup_singleton v) ?_
    intro x hx1 hx2
    rw [List.mem_singleton] at hx2
    subst hx2
    exact hv hx1

theorem ulist_add_mem (u : Ulist) (v x : Nat)
    (h : x ∈ (ulist_add u v).nodes) : x ∈ u.nodes ∨ x = v := by
  unfold ulist_add at h
  by_cases hv : v ∈ u.nodes
  · rw [if_pos hv] at h
    exact Or.inl h
  · rw [if_neg hv] at h
    rcases List.mem_append.mp h with h2 | h2
    · exact Or.inl h2
    · exact Or.inr (List.mem_singleton.mp h2)

theorem ulist_add_len (u : Ulist) (v : Nat) :
    u.nodes.length ≤ (ulist_add u v).nodes.length := by
  unfold ulist_add
  by_cases hv : v ∈ u.nodes
  · simp [hv]
  · simp [hv]

theorem foldl_ulist_nodup :
    ∀ (ps : List Nat) (u : Ulist), u.nodes.Nodup →
    ((ps.foldl ulist_add u)).nodes.Nodup := by
  intro ps
  induction ps with
  | nil => intro u h; simpa using h
  | cons p ps ih =>
    intro u h
    simp only [List.foldl_cons]
    exact ih _ (ulist_add_nodup u p h)

theorem foldl_ulist_mem :
    ∀ (ps : List Nat) (u : Ulist) (x : Nat),
    x ∈ ((ps.foldl ulist_add u)).nodes → x ∈ u.nodes ∨ x ∈ ps := by
  intro ps
  induction ps with
  | nil =>
    intro u x h
    simp only [List.foldl_nil] at h
    exact Or.inl h
  | cons p ps ih =>
    intro u x h
    simp only [List.foldl_cons] at h
    rcases ih _ _ h with h2 | h2
    · rcases ulist_add_mem u p x h2 with h3 | h3
      · exact Or.inl h3
      · exact Or.inr (h3 ▸ List.mem_cons_self p ps)
    · exact Or.inr (List.mem_cons_of_mem p h2)

theorem foldl_ulist_len :
    ∀ (ps : List Nat) (u : Ulist),
    u.nodes.length ≤ ((ps.foldl ulist_add u)).nodes.length := by
  intro ps
  induction ps with
  | nil => intro u; simp
  | cons p ps ih =>
    intro u
    simp only [List.foldl_cons]
    exact Nat.le_trans (ulist_add_len u p) (ih _)

theorem farl_loop_isSome (univ : List Nat)
    (fpn : Nat → Except Int (List Nat × List Nat))
    (hcl : ∀ a ps rs, fpn a = .ok (ps, rs) → ∀ p ∈ ps, p ∈ univ) :
    ∀ (fuel idx bytenr : Nat) (tmp roots : Ulist),
    tmp.nodes.Nodup → (∀ x ∈ tmp.nodes, x ∈ univ) →
    idx ≤ tmp.nodes.length →
    univ.length + 1 ≤ idx + fuel →
    (find_all_roots_loop fpn fuel bytenr tmp idx roots).isSome := by
  intro fuel
  induction fuel with
  | zero =>
    intro idx bytenr tmp roots hn hs hidx hf
    have := nodup_subset_length hn hs
    omega
  | succ fuel ih =>
    intro idx bytenr tmp roots hn hs hidx hf
    rw [find_all_roots_loop]
    cases hfp : fpn bytenr with
    | error e =>
      dsimp only
      by_cases he : e = ENOENT
      · rw [if_pos he]
        cases hg : tmp.nodes[idx]? with
        | none => simp
        | some v =>
          have hlt : idx < tmp.nodes.length :=
            List.getElem?_eq_some_iff.mp hg |>.1
          exact ih (idx + 1) v tmp roots hn hs hlt (by omega)
      · rw [if_neg he]
        simp
    | ok pr =>
      obtain ⟨ps, rs⟩ := pr
      dsimp only
      have hn2 : ((ps.foldl ulist_add tmp)).nodes.Nodup :=
        foldl_ulist_nodup ps tmp hn
      have hs2 : ∀ x ∈ ((ps.foldl ulist_add tmp)).nodes, x ∈ univ := by
        intro x hx
        rcases foldl_ulist_mem ps tmp x hx with h2 | h2
        · exact hs x h2
        · exact hcl bytenr ps rs hfp x h2
      cases hg : ((ps.foldl ulist_add tmp)).nodes[idx]? with
      | none => simp [hg]
      | some v =>
        simp only [hg]
        have hlt : idx < ((ps.foldl ulist_add tmp)).nodes.length :=
          List.getElem?_eq_some_iff.mp hg |>.1
        exact ih (idx + 1) v _ _ hn2 hs2 hlt (by omega)

/-- C3: the find_all_roots iteration terminates.  First conjunct: the
deduplicating work ulist never re-admits an address already added.  Second
conjunct: when every parent address delivered by a find_parent_nodes pass
lies in a finite address universe (the finitely many block addresses of
the filesystem — trees do not cycle, and more strongly dedup alone
bounds the walk), the loop reaches its "iterator yields no new address"
exit (or an error exit) within |universe| + 1 passes: it does not run out
of fuel, i.e. it terminates. -/
theorem find_all_roots_terminates :
    (∀ (u : Ulist) (v : Nat), v ∈ u.nodes → ulist_add u v = u) ∧
    (∀ (univ : List Nat) (fpn : Nat → Except Int (List Nat × List Nat))
        (bytenr : Nat),
      (∀ a ps rs, fpn a = .ok (ps, rs) → ∀ p ∈ ps, p ∈ univ) →
      (find_all_roots_loop fpn (univ.length + 1) bytenr
        { nodes := [] } 0 { nodes := [] }).isSome) := by
  constructor
  · exact ulist_add_mem_eq
  · intro univ fpn bytenr hcl
    exact farl_loop_isSome univ fpn hcl (univ.length + 1) 0 bytenr
      { nodes := [] } { nodes := [] } List.nodup_nil (by simp)
      (by simp) (by omega)

/-- Witness for find_all_roots_terminates: re-adding 3 to a ulist holding
it is a no-op, and the walk of the two-address graph 1 -> 2 terminates
with fuel 2. -/
theorem find_all_roots_terminates_witness :
    ulist_add { nodes := [3] } 3 = { nodes := [3] } ∧
    (find_all_roots_loop
      (fun a => .ok (if a = 1 then [2] else [], [7])) 2 1
      { nodes := [] } 0 { nodes := [] }).isSome := by
  constructor
  · exact find_all_roots_terminates.1 { nodes := [3] } 3
      (List.mem_singleton.mpr rfl)
  · refine find_all_roots_terminates.2 [2]
      (fun a => .ok (if a = 1 then [2] else [], [7])) 1 ?_
    intro a ps rs h p hp
    simp only [Except.ok.injEq, Prod.mk.injEq] at h
    obtain ⟨hps, _⟩ := h
    subst hps
    by_cases ha : a = 1
    · simp only [ha, if_pos] at hp
      simpa using hp
    · simp [ha] at hp

/-! ## C4: -ENOENT is tolerated, other errors abort -/

/-- C4 counterexample: the claim says ENOENT from resolving one indirect
reference "only drops that reference".  It does not drop it:
__resolve_indirect_refs moves the ref onto the pending queue BEFORE
resolving, and on ENOENT simply continues, so the unresolved ref (parent
0, root_id set, count 1) stays pending — and the final drain then adds
its root_id to the roots output, so the reference still contributes. -/
theorem enoent_drop_cex :
    resolve_indirect_refs (fun _ => .error ENOENT) [c4_ref] [] =
      .ok [c4_ref] ∧
    (drain_pending true none (fun _ => []) [c4_ref]
      { nodes := [] } []).1.nodes = [5] := by
  exact ⟨rfl, rfl⟩

/-- C4 amended: ENOENT from resolving one indirect reference leaves that
reference unresolved on the pending queue (where the drain can still
harvest its root_id) and resolution continues with the remaining refs;
ENOENT from a whole find_parent_nodes pass is swallowed by both
btrfs_find_all_leafs and the find_all_roots iteration (neither ever
returns ENOENT); any other negative error aborts the call and is returned
verbatim to the caller. -/
theorem enoent_handling_amended :
    (∀ (oracle : PrelimRef → Except Int (List (Nat × List InodeElem)))
        (r : PrelimRef) (rest pending : List PrelimRef),
      oracle r = .error ENOENT →
      resolve_indirect_refs oracle (r :: rest) pending =
        resolve_indirect_refs oracle rest (pending ++ [r])) ∧
    (∀ (oracle : PrelimRef → Except Int (List (Nat × List InodeElem)))
        (r : PrelimRef) (rest pending : List PrelimRef) (e : Int),
      oracle r = .error e → e ≠ ENOENT →
      resolve_indirect_refs oracle (r :: rest) pending = .error e) ∧
    (∀ (res : Except Int (List (Nat × List InodeElem))),
      btrfs_find_all_leafs res ≠ .error ENOENT) ∧
    (∀ (e : Int), e < 0 → e ≠ ENOENT →
      btrfs_find_all_leafs (.error e) = .error e) ∧
    (∀ (fpn : Nat → Except Int (List Nat × List Nat))
        (fuel bytenr idx : Nat) (tmp roots : Ulist),
      find_all_roots_loop fpn fuel bytenr tmp idx roots ≠
        some (.error ENOENT)) ∧
    (∀ (fpn : Nat → Except Int (List Nat × List Nat))
        (fuel bytenr idx : Nat) (tmp roots : Ulist) (e : Int),
      fpn bytenr = .error e → e ≠ ENOENT →
      find_all_roots_loop fpn (fuel + 1) bytenr tmp idx roots =
        some (.error e)) := by
  refine ⟨?_, ?_, ?_, ?_, ?_, ?_⟩
  · intro oracle r rest pending h
    simp [resolve_indirect_refs, h]
  · intro oracle r rest pending e h he
    simp [resolve_indirect_refs, h, he]
  · intro res
    cases res with
    | ok l => simp [btrfs_find_all_leafs]
    | error e =>
      by_cases h : e < 0 ∧ e ≠ ENOENT
      · simp only [btrfs_find_all_leafs, if_pos h, ne_eq, Except.error.injEq]
        exact h.2
      · simp [btrfs_find_all_leafs, h]
  · intro e h1 h2
    simp [btrfs_find_all_leafs, h1, h2]
  · intro fpn fuel
    induction fuel with
    | zero =>
      intro bytenr idx tmp roots
      simp [find_all_roots_loop]
    | succ fuel ih =>
      intro bytenr idx tmp roots
      rw [find_all_roots_loop]
      cases hfp : fpn bytenr with
      | error e =>
        dsimp only
        by_cases he : e = ENOENT
        · rw [if_pos he]
          cases hg : tmp.nodes[idx]? with
          | none => simp
          | some v => exact ih v (idx + 1) tmp roots
        · rw [if_neg he]
          simp only [ne_eq, Option.some.injEq, Except.error.injEq]
          intro hc
          exact he hc
      | ok pr =>
        obtain ⟨ps, rs⟩ := pr
        dsimp only
        cases hg : ((ps.foldl ulist_add tmp)).nodes[idx]? with
        | none => simp [hg]
        | some v =>
          simp only [hg]
          exact ih v (idx + 1) _ _
  · intro fpn fuel bytenr idx tmp roots e h he
    rw [find_all_roots_loop]
    simp [h, he]

/-- Witness for enoent_handling_amended: concrete per-ref ENOENT
continuation, ENOENT swallowed by find_all_leafs, and -EIO (-5)
propagated by both walkers. -/
theorem enoent_handling_witness :
    (resolve_indirect_refs (fun _ => .error ENOENT) [c4_ref] [] =
      resolve_indirect_refs (fun _ => .error ENOENT) [] [c4_ref]) ∧
    btrfs_find_all_leafs (.error ENOENT) ≠ .error ENOENT ∧
    btrfs_find_all_leafs (.error (-5)) = .error (-5) ∧
    find_all_roots_loop (fun _ => .error (-5)) 1 9
      { nodes := [] } 0 { nodes := [] } = some (.error (-5)) := by
  refine ⟨?_, ?_, ?_, ?_⟩
  · exact enoent_handling_amended.1 (fun _ => .error ENOENT) c4_ref [] []
      rfl
  · exact enoent_handling_amended.2.2.1 (.error ENOENT)
  · exact enoent_handling_amended.2.2.2.1 (-5) (by decide) (by decide)
  · exact enoent_handling_amended.2.2.2.2.2 (fun _ => .error (-5)) 0 9 0
      { nodes := [] } { nodes := [] } (-5) rfl (by decide)

/-! ## C8: path truncation accounting -/

theorem path_len_cons (next : List Char) (rest : List (List Char))
    (name : List Char) :
    path_len (next :: rest) name = name.length + 1 + path_len rest next := by
  simp only [path_len, List.map_cons, List.sum_cons, List.length_cons]
  omega

theorem rtp_loop_fst :
    ∀ (recs : List (List Char)) (name : List Char) (bl : Int)
      (acc : List Char),
    (btrfs_ref_to_path_loop recs name bl acc).1 =
      bl - path_len recs name := by
  intro recs
  induction recs with
  | nil =>
    intro name bl acc
    simp only [btrfs_ref_to_path_loop, path_len, List.map_nil, List.sum_nil,
      List.length_nil]
    push_cast
    ring
  | cons next rest ih =>
    intro name bl acc
    rw [btrfs_ref_to_path_loop]
    rw [ih, path_len_cons]
    push_cast
    ring

theorem rtp_loop_acc :
    ∀ (recs : List (List Char)) (name : List Char) (bl : Int)
      (acc : List Char),
    0 ≤ bl - path_len recs name →
    (btrfs_ref_to_path_loop recs name bl acc).2 =
      full_path recs name ++ acc := by
  intro recs
  induction recs with
  | nil =>
    intro name bl acc h
    simp only [path_len, List.map_nil, List.sum_nil, List.length_nil] at h
    rw [btrfs_ref_to_path_loop]
    rw [if_pos (by omega : (0 : Int) ≤ bl - name.length)]
    rfl
  | cons next rest ih =>
    intro name bl acc h
    rw [path_len_cons] at h
    push_cast at h
    rw [btrfs_ref_to_path_loop]
    have hplen : (0 : Int) ≤ path_len rest next := Int.natCast_nonneg _
    rw [if_pos (by omega : (0 : Int) ≤ bl - name.length)]
    rw [if_pos (by omega : (0 : Int) ≤ bl - name.length - 1)]
    rw [ih next (bl - name.length - 1) ('/' :: (name ++ acc)) (by omega)]
    simp only [full_path, List.append_assoc, List.cons_append]

theorem full_path_ne_nil (recs : List (List Char)) (name : List Char)
    (h : name ≠ []) : full_path recs name ≠ [] := by
  cases recs with
  | nil => exact h
  | cons next rest =>
    simp only [full_path]
    intro hc
    rcases List.append_eq_nil.mp hc with ⟨_, h2⟩
    cases h2

theorem full_path_head :
    ∀ (recs : List (List Char)) (name : List Char),
    name ≠ [] → ('/' : Char) ∉ name →
    (∀ n ∈ recs, n ≠ [] ∧ ('/' : Char) ∉ n) →
    ∀ ch, (full_path recs name).head? = some ch → ch ≠ '/' := by
  intro recs
  induction recs with
  | nil =>
    intro name hne hns _ ch hh
    simp only [full_path] at hh
    have hmem : ch ∈ name := List.mem_of_mem_head? (Option.mem_def.mpr hh)
    intro hc
    subst hc
    exact hns hmem
  | cons next rest ih =>
    intro name hne hns hrecs ch hh
    have hnext := hrecs next (List.mem_cons_self next rest)
    have hfp : full_path rest next ≠ [] :=
      full_path_ne_nil rest next hnext.1
    simp only [full_path] at hh
    rw [List.head?_append_of_ne_nil _ hfp] at hh
    exact ih next hnext.1 hnext.2
      (fun n hn => hrecs n (List.mem_cons_of_mem next hn)) ch hh

/-- C8 counterexample: a single-link inode with name "ab" (true path
length L = 2).  With container capacity 11 the path writer gets
avail = 3 = L + 1 usable bytes — enough by the claim's "capacity >= L"
criterion — yet the exact-fit string is discarded: the returned start
pointer equals fspath_min, which inode_to_path counts as missed (the
comparison is strict), reporting elem_cnt = 0, no path, elem_missed = 1
and zero missing bytes. -/
theorem path_exact_fit_cex :
    paths_from_inode_single [] ['a', 'b'] 11 =
      { bytes_left := 0, bytes_missing := 0, elem_cnt := 0,
        elem_missed := 1, paths := [] } ∧
    path_len [] ['a', 'b'] + 1 = (if s_ptr < 11 then 11 - s_ptr else 0) := by
  exact ⟨rfl, rfl⟩

/-- C8 amended: let L be the true path length and avail the usable bytes
the path writer receives (container capacity minus the pointer slot).
When avail <= L + 1 (which includes avail = L and the exact-fit
avail = L + 1), zero usable path strings are produced, elem_missed = 1 and
bytes_missing = L + 1 - avail (the + 1 pays for the trailing NUL).  Only
when avail >= L + 2 is the path produced: zero missing bytes, and the
string is the full chain path, which starts with a name character, never
with '/'. -/
theorem path_truncation_amended (recs : List (List Char))
    (name : List Char) (capacity : Nat) :
    ((if s_ptr < capacity then capacity - s_ptr else 0) ≤
        path_len recs name + 1 →
      (paths_from_inode_single recs name capacity).elem_cnt = 0 ∧
      (paths_from_inode_single recs name capacity).paths = [] ∧
      (paths_from_inode_single recs name capacity).elem_missed = 1 ∧
      (paths_from_inode_single recs name capacity).bytes_missing =
        path_len recs name + 1 -
          (if s_ptr < capacity then capacity - s_ptr else 0)) ∧
    (path_len recs name + 2 ≤
        (if s_ptr < capacity then capacity - s_ptr else 0) →
      (paths_from_inode_single recs name capacity).elem_cnt = 1 ∧
      (paths_from_inode_single recs name capacity).bytes_missing = 0 ∧
      (paths_from_inode_single recs name capacity).elem_missed = 0 ∧
      (paths_from_inode_single recs name capacity).paths =
        [full_path recs name]) ∧
    (name ≠ [] → ('/' : Char) ∉ name →
      (∀ n ∈ recs, n ≠ [] ∧ ('/' : Char) ∉ n) →
      ∀ ch, (full_path recs name).head? = some ch → ch ≠ '/') := by
  have hr1 : (btrfs_ref_to_path recs name
      (if s_ptr < capacity then capacity - s_ptr else 0)).1 =
      (((if s_ptr < capacity then capacity - s_ptr else 0) : Nat) : Int) -
        1 - path_len recs name := by
    unfold btrfs_ref_to_path
    exact rtp_loop_fst recs name _ []
  refine ⟨?_, ?_, full_path_head recs name⟩
  · intro h
    have hnpos : ¬ (0 < (btrfs_ref_to_path recs name
        (if s_ptr < capacity then capacity - s_ptr else 0)).1) := by
      rw [hr1]
      omega
    refine ⟨?_, ?_, ?_, ?_⟩
    · simp [paths_from_inode_single, inode_to_path, if_neg hnpos]
    · simp [paths_from_inode_single, inode_to_path, if_neg hnpos]
    · simp [paths_from_inode_single, inode_to_path, if_neg hnpos]
    · simp only [paths_from_inode_single, inode_to_path, if_neg hnpos,
        Nat.zero_add]
      rw [hr1]
      omega
  · intro h
    have hpos : 0 < (btrfs_ref_to_path recs name
        (if s_ptr < capacity then capacity - s_ptr else 0)).1 := by
      rw [hr1]
      omega
    have hacc : (btrfs_ref_to_path recs name
        (if s_ptr < capacity then capacity - s_ptr else 0)).2 =
        full_path recs name := by
      unfold btrfs_ref_to_path
      have hge : (0 : Int) ≤
          (((if s_ptr < capacity then capacity - s_ptr else 0) : Nat) :
            Int) - 1 - path_len recs name := by
        omega
      rw [rtp_loop_acc recs name _ [] hge]
      simp
    refine ⟨?_, ?_, ?_, ?_⟩
    · simp [paths_from_inode_single, inode_to_path, if_pos hpos]
    · simp [paths_from_inode_single, inode_to_path, if_pos hpos]
    · simp [paths_from_inode_single, inode_to_path, if_pos hpos]
    · simp only [paths_from_inode_single, inode_to_path, if_pos hpos]
      rw [hacc]
      simp

/-- Witness for path_truncation_amended: the chain "c" / "ab" (L = 4) with
capacity 14 (avail = 6 = L + 2) produces exactly the path "c/ab" with
nothing missing, and its head character is not '/'. -/
theorem path_truncation_witness :
    (paths_from_inode_single [['c']] ['a', 'b'] 14).elem_cnt = 1 ∧
    (paths_from_inode_single [['c']] ['a', 'b'] 14).bytes_missing = 0 ∧
    (paths_from_inode_single [['c']] ['a', 'b'] 14).paths =
      [full_path [['c']] ['a', 'b']] ∧
    ('c' : Char) ≠ '/' := by
  have h := (path_truncation_amended [['c']] ['a', 'b'] 14).2.1 (by decide)
  refine ⟨h.1, h.2.1, h.2.2.2, ?_⟩
  exact (path_truncation_amended [['c']] ['a', 'b'] 14).2.2 (by decide)
    (by decide) (by decide) 'c' rfl

end Backref
